import Mathlib

/-!
# Adaptive Simpson quadrature with three OpenMP schedulers: a verification development

This file embeds the C sources of the `omp-performance` repository
(`src/solver1.c`, `src/solver2_shared.c`, `src/solver2_separate.c`)
in Lean 4 and proves properties of the embedding.

Doubles are modelled by exact rationals (`ℚ`); the fixed constants
`1.0e-12` and the capacity `10000` are carried over literally.

* The quadrature kernel (shared verbatim by all three solvers) becomes
  `evaluate` / `evaluateWith`.
* Strategy A (`solver1.c`, recursive fork-join) becomes `Solver1.simpson`;
  since the two spawned OpenMP tasks are joined by `taskwait` before the
  parent combines them, its value is that of the plain recursion.
* Strategy B (`solver2_shared.c`, one shared queue plus a busy counter)
  becomes the small-step interleaving transition system `StepB`, where the
  body of each `omp_set_lock`/`omp_unset_lock` critical section and each
  `#pragma omp atomic` update is one atomic step.
* Strategy C (`solver2_separate.c`, per-worker queues plus round-robin
  work stealing) becomes the transition system `StepC`.  The unlocked
  termination check `isempty(local_queue) && active_threads == 0` of
  `solver2_separate.c` is modelled faithfully as two separate read steps
  (`readEmpty`, then the busy-counter read).

States of `StepB`/`StepC` carry two ghost multisets: `acc`, the multiset of
(interval, Richardson estimate) pairs accumulated so far, and `proc`, the
multiset of all intervals handed to the kernel so far.  These record what
the per-worker reduction accumulators sum up.
-/

namespace Omp

/-- The hard floor `1.0e-12` of `solver1.c` line 34 / `solver2_shared.c`
line 144 / `solver2_separate.c` line 189, read as an exact rational. -/
def floorWidth : ℚ := 1 / 1000000000000

/-- `struct Interval` (identical in all three source files). -/
structure Interval where
  left : ℚ
  right : ℚ
  tol : ℚ
  f_left : ℚ
  f_mid : ℚ
  f_right : ℚ
deriving DecidableEq

instance : Inhabited Interval := ⟨⟨0, 0, 0, 0, 0, 0⟩⟩

/-- The kernel's verdict on one interval: accept with an estimate, or split
into two children (spec §4.1). -/
inductive Verdict where
  | accept (est : ℚ)
  | split (i1 i2 : Interval)
deriving DecidableEq

/-- Case analysis combinator on a verdict. -/
def Verdict.onCases {α : Sort _} (v : Verdict) (fa : ℚ → α)
    (fs : Interval → Interval → α) : α :=
  match v with
  | .accept x => fa x
  | .split j k => fs j k

/-- `c = (interval.left + interval.right) / 2.0`. -/
def midpoint (i : Interval) : ℚ := (i.left + i.right) / 2

/-- `d = (interval.left + c) / 2.0`. -/
def quarterD (i : Interval) : ℚ := (i.left + midpoint i) / 2

/-- `e = (c + interval.right) / 2.0`. -/
def quarterE (i : Interval) : ℚ := (midpoint i + i.right) / 2

/-- `q1 = h / 6.0 * (f_left + 4.0 * f_mid + f_right)`. -/
def q1 (i : Interval) : ℚ :=
  (i.right - i.left) / 6 * (i.f_left + 4 * i.f_mid + i.f_right)

/-- `q2 = h / 12.0 * (f_left + 4.0 * fd + 2.0 * f_mid + 4.0 * fe + f_right)`. -/
def q2 (i : Interval) (fd fe : ℚ) : ℚ :=
  (i.right - i.left) / 12 * (i.f_left + 4 * fd + 2 * i.f_mid + 4 * fe + i.f_right)

/-- The acceptance test
`(fabs(q2 - q1) < interval.tol) || ((interval.right - interval.left) < 1.0e-12)`. -/
def acceptCond (i : Interval) (fd fe : ℚ) : Prop :=
  |q2 i fd fe - q1 i| < i.tol ∨ i.right - i.left < floorWidth

instance (i : Interval) (fd fe : ℚ) : Decidable (acceptCond i fd fe) :=
  inferInstanceAs (Decidable (_ ∨ _))

/-- The first child interval `i1` built on the split branch. -/
def leftChild (i : Interval) (fd : ℚ) : Interval :=
  ⟨i.left, midpoint i, i.tol, i.f_left, fd, i.f_mid⟩

/-- The second child interval `i2` built on the split branch. -/
def rightChild (i : Interval) (fe : ℚ) : Interval :=
  ⟨midpoint i, i.right, i.tol, i.f_mid, fe, i.f_right⟩

/-- The kernel body, abstracted over the two freshly computed function
values `fd = func(d)` and `fe = func(e)`: these are the only places the
integrand enters. -/
def evaluateWith (i : Interval) (fd fe : ℚ) : Verdict :=
  if acceptCond i fd fe then
    .accept (q2 i fd fe + (q2 i fd fe - q1 i) / 15)
  else
    .split (leftChild i fd) (rightChild i fe)

/-- One kernel invocation on an interval: evaluates the integrand exactly
twice, at the quarter-points `d` and `e`. -/
def evaluate (f : ℚ → ℚ) (i : Interval) : Verdict :=
  evaluateWith i (f (quarterD i)) (f (quarterE i))

/-- The width of an interval shrinks below any positive threshold after
finitely many halvings; this bounds the recursion depth. -/
lemma exists_depth (w : ℚ) : ∃ n : ℕ, w < floorWidth * 2 ^ n := by
  obtain ⟨n, hn⟩ := pow_unbounded_of_one_lt (α := ℚ) (w / floorWidth)
    (by norm_num : (1 : ℚ) < 2)
  refine ⟨n, ?_⟩
  have hfw : (0 : ℚ) < floorWidth := by norm_num [floorWidth]
  have := (div_lt_iff₀ hfw).mp hn
  linarith

/-- Number of halvings needed to force the hard floor: a termination
measure for the adaptive recursion. -/
def depth (i : Interval) : ℕ := Nat.find (exists_depth (i.right - i.left))

lemma depth_half {w : ℚ} (hw : floorWidth ≤ w) :
    Nat.find (exists_depth (w / 2)) < Nat.find (exists_depth w) := by
  set m := Nat.find (exists_depth w) with hm
  have hmspec : w < floorWidth * 2 ^ m := Nat.find_spec (exists_depth w)
  have hmpos : 0 < m := by
    rcases Nat.eq_zero_or_pos m with h0 | h
    · exfalso
      rw [h0] at hmspec
      simp at hmspec
      linarith
    · exact h
  have hpred : w / 2 < floorWidth * 2 ^ (m - 1) := by
    have h2 : (2 : ℚ) ^ m = 2 * 2 ^ (m - 1) := by
      conv_lhs => rw [show m = (m - 1) + 1 from (Nat.succ_pred_eq_of_pos hmpos).symm]
      ring
    rw [h2] at hmspec
    linarith
  have hle : Nat.find (exists_depth (w / 2)) ≤ m - 1 := Nat.find_le hpred
  omega

lemma width_leftChild (i : Interval) (fd : ℚ) :
    (leftChild i fd).right - (leftChild i fd).left = (i.right - i.left) / 2 := by
  simp only [leftChild, midpoint]
  ring

lemma width_rightChild (i : Interval) (fe : ℚ) :
    (rightChild i fe).right - (rightChild i fe).left = (i.right - i.left) / 2 := by
  simp only [rightChild, midpoint]
  ring

/-- Inversion of the kernel on a split verdict: identifies the children and
shows the hard floor had not been reached. -/
lemma evaluate_split_elim {f : ℚ → ℚ} {i j k : Interval}
    (hv : evaluate f i = .split j k) :
    j = leftChild i (f (quarterD i)) ∧ k = rightChild i (f (quarterE i)) ∧
      floorWidth ≤ i.right - i.left := by
  unfold evaluate evaluateWith at hv
  by_cases h : acceptCond i (f (quarterD i)) (f (quarterE i))
  · rw [if_pos h] at hv
    exact absurd hv (by simp)
  · rw [if_neg h] at hv
    injection hv with h1 h2
    refine ⟨h1.symm, h2.symm, ?_⟩
    unfold acceptCond at h
    push_neg at h
    exact h.2

lemma depth_split_left {f : ℚ → ℚ} {i j k : Interval}
    (hv : evaluate f i = .split j k) : depth j < depth i := by
  obtain ⟨hj, -, hw⟩ := evaluate_split_elim hv
  have hwidth : j.right - j.left = (i.right - i.left) / 2 := by
    rw [hj]; exact width_leftChild i _
  unfold depth
  simp only [hwidth]
  exact depth_half hw

lemma depth_split_right {f : ℚ → ℚ} {i j k : Interval}
    (hv : evaluate f i = .split j k) : depth k < depth i := by
  obtain ⟨-, hk, hw⟩ := evaluate_split_elim hv
  have hwidth : k.right - k.left = (i.right - i.left) / 2 := by
    rw [hk]; exact width_rightChild i _
  unfold depth
  simp only [hwidth]
  exact depth_half hw

namespace Solver1

/-- Fuelled version of the recursion of
`double simpson(double (*func)(double), struct Interval interval)` in
`solver1.c`; `none` means the fuel ran out.  `depth` bounds the recursion
depth, so `simpsonRun f (depth i + 1) i` is the value of the C recursion
(`simpsonRun_total` and `simpsonRun_stable` below). -/
def simpsonRun (f : ℚ → ℚ) : ℕ → Interval → Option ℚ
  | 0, _ => none
  | n + 1, i =>
    (evaluate f i).onCases
      (fun v => some v)
      (fun j k =>
        (simpsonRun f n j).bind fun a => (simpsonRun f n k).bind fun b => some (a + b))

lemma simpsonRun_succ (f : ℚ → ℚ) (n : ℕ) (i : Interval) :
    simpsonRun f (n + 1) i =
      (evaluate f i).onCases
        (fun v => some v)
        (fun j k =>
          (simpsonRun f n j).bind fun a =>
            (simpsonRun f n k).bind fun b => some (a + b)) := rfl

lemma simpsonRun_accept_eq {f : ℚ → ℚ} {i : Interval} {v : ℚ} (n : ℕ)
    (hv : evaluate f i = .accept v) : simpsonRun f (n + 1) i = some v := by
  rw [simpsonRun_succ, hv]
  rfl

lemma simpsonRun_split_eq {f : ℚ → ℚ} {i j k : Interval} (n : ℕ)
    (hv : evaluate f i = .split j k) :
    simpsonRun f (n + 1) i =
      (simpsonRun f n j).bind fun a =>
        (simpsonRun f n k).bind fun b => some (a + b) := by
  rw [simpsonRun_succ, hv]
  rfl

lemma simpsonRun_stable (f : ℚ → ℚ) :
    ∀ {n m : ℕ} {i : Interval}, depth i < n → depth i < m →
      simpsonRun f n i = simpsonRun f m i := by
  intro n
  induction n with
  | zero => intro m i hn; omega
  | succ n ih =>
    intro m i hn hm
    match m, hm with
    | m + 1, hm =>
      cases hv : evaluate f i with
      | accept v => rw [simpsonRun_accept_eq n hv, simpsonRun_accept_eq m hv]
      | split j k =>
        have hj := depth_split_left hv
        have hk := depth_split_right hv
        rw [simpsonRun_split_eq n hv, simpsonRun_split_eq m hv,
          ih (m := m) (i := j) (by omega) (by omega),
          ih (m := m) (i := k) (by omega) (by omega)]

lemma simpsonRun_total (f : ℚ → ℚ) :
    ∀ {n : ℕ} {i : Interval}, depth i < n → (simpsonRun f n i).isSome := by
  intro n
  induction n with
  | zero => intro i hn; omega
  | succ n ih =>
    intro i hn
    cases hv : evaluate f i with
    | accept v => rw [simpsonRun_accept_eq n hv]; rfl
    | split j k =>
      have hj := depth_split_left hv
      have hk := depth_split_right hv
      have h1 := ih (i := j) (by omega)
      have h2 := ih (i := k) (by omega)
      rcases Option.isSome_iff_exists.mp h1 with ⟨a, ha⟩
      rcases Option.isSome_iff_exists.mp h2 with ⟨b, hb⟩
      rw [simpsonRun_split_eq n hv, ha, hb]
      rfl

/-- The value computed by `simpson` of `solver1.c`.  The two `omp task`
blocks are joined by `taskwait` before the sum is formed, so the value is
that of the plain recursion. -/
def simpson (f : ℚ → ℚ) (i : Interval) : ℚ :=
  (simpsonRun f (depth i + 1) i).getD 0

end Solver1

/-- Fuelled recursion tree of the adaptive algorithm on one interval:
first component the multiset of (accepted interval, accepted estimate)
pairs, second component the multiset of all intervals handed to the
kernel. -/
def simpsonTreeRun (f : ℚ → ℚ) :
    ℕ → Interval → Option (Multiset (Interval × ℚ) × Multiset Interval)
  | 0, _ => none
  | n + 1, i =>
    (evaluate f i).onCases
      (fun v => some ({(i, v)}, {i}))
      (fun j k =>
        (simpsonTreeRun f n j).bind fun a =>
          (simpsonTreeRun f n k).bind fun b =>
            some (a.1 + b.1, i ::ₘ (a.2 + b.2)))

lemma simpsonTreeRun_succ (f : ℚ → ℚ) (n : ℕ) (i : Interval) :
    simpsonTreeRun f (n + 1) i =
      (evaluate f i).onCases
        (fun v => some ({(i, v)}, {i}))
        (fun j k =>
          (simpsonTreeRun f n j).bind fun a =>
            (simpsonTreeRun f n k).bind fun b =>
              some (a.1 + b.1, i ::ₘ (a.2 + b.2))) := rfl

lemma simpsonTreeRun_accept_eq {f : ℚ → ℚ} {i : Interval} {v : ℚ} (n : ℕ)
    (hv : evaluate f i = .accept v) :
    simpsonTreeRun f (n + 1) i = some ({(i, v)}, {i}) := by
  rw [simpsonTreeRun_succ, hv]
  rfl

lemma simpsonTreeRun_split_eq {f : ℚ → ℚ} {i j k : Interval} (n : ℕ)
    (hv : evaluate f i = .split j k) :
    simpsonTreeRun f (n + 1) i =
      (simpsonTreeRun f n j).bind fun a =>
        (simpsonTreeRun f n k).bind fun b =>
          some (a.1 + b.1, i ::ₘ (a.2 + b.2)) := by
  rw [simpsonTreeRun_succ, hv]
  rfl

lemma simpsonTreeRun_stable (f : ℚ → ℚ) :
    ∀ {n m : ℕ} {i : Interval}, depth i < n → depth i < m →
      simpsonTreeRun f n i = simpsonTreeRun f m i := by
  intro n
  induction n with
  | zero => intro m i hn; omega
  | succ n ih =>
    intro m i hn hm
    match m, hm with
    | m + 1, hm =>
      cases hv : evaluate f i with
      | accept v => rw [simpsonTreeRun_accept_eq n hv, simpsonTreeRun_accept_eq m hv]
      | split j k =>
        have hj := depth_split_left hv
        have hk := depth_split_right hv
        rw [simpsonTreeRun_split_eq n hv, simpsonTreeRun_split_eq m hv,
          ih (m := m) (i := j) (by omega) (by omega),
          ih (m := m) (i := k) (by omega) (by omega)]

lemma simpsonTreeRun_total (f : ℚ → ℚ) :
    ∀ {n : ℕ} {i : Interval}, depth i < n → (simpsonTreeRun f n i).isSome := by
  intro n
  induction n with
  | zero => intro i hn; omega
  | succ n ih =>
    intro i hn
    cases hv : evaluate f i with
    | accept v => rw [simpsonTreeRun_accept_eq n hv]; rfl
    | split j k =>
      have hj := depth_split_left hv
      have hk := depth_split_right hv
      have h1 := ih (i := j) (by omega)
      have h2 := ih (i := k) (by omega)
      rcases Option.isSome_iff_exists.mp h1 with ⟨a, ha⟩
      rcases Option.isSome_iff_exists.mp h2 with ⟨b, hb⟩
      rw [simpsonTreeRun_split_eq n hv, ha, hb]
      rfl

/-- Multiset of accepted (interval, estimate) pairs of the recursion tree. -/
def accMS (f : ℚ → ℚ) (i : Interval) : Multiset (Interval × ℚ) :=
  ((simpsonTreeRun f (depth i + 1) i).getD (0, 0)).1

/-- Multiset of all intervals the recursion tree hands to the kernel. -/
def procMS (f : ℚ → ℚ) (i : Interval) : Multiset Interval :=
  ((simpsonTreeRun f (depth i + 1) i).getD (0, 0)).2

lemma simpsonTree_accept {f : ℚ → ℚ} {i : Interval} {v : ℚ}
    (hv : evaluate f i = .accept v) :
    accMS f i = {(i, v)} ∧ procMS f i = {i} := by
  unfold accMS procMS
  rw [simpsonTreeRun_accept_eq (depth i) hv]
  exact ⟨rfl, rfl⟩

lemma simpsonTree_split {f : ℚ → ℚ} {i j k : Interval}
    (hv : evaluate f i = .split j k) :
    accMS f i = accMS f j + accMS f k ∧
      procMS f i = i ::ₘ (procMS f j + procMS f k) := by
  have hj := depth_split_left hv
  have hk := depth_split_right hv
  have hjt := simpsonTreeRun_total f (i := j) (n := depth j + 1) (by omega)
  have hkt := simpsonTreeRun_total f (i := k) (n := depth k + 1) (by omega)
  rcases Option.isSome_iff_exists.mp hjt with ⟨a, ha⟩
  rcases Option.isSome_iff_exists.mp hkt with ⟨b, hb⟩
  have hj2 : simpsonTreeRun f (depth i) j = some a := by
    rw [simpsonTreeRun_stable f (by omega) (by omega : depth j < depth j + 1)]
    exact ha
  have hk2 : simpsonTreeRun f (depth i) k = some b := by
    rw [simpsonTreeRun_stable f (by omega) (by omega : depth k < depth k + 1)]
    exact hb
  unfold accMS procMS
  rw [simpsonTreeRun_split_eq (depth i) hv, hj2, hk2, ha, hb]
  exact ⟨rfl, rfl⟩

lemma simpson1_accept {f : ℚ → ℚ} {i : Interval} {v : ℚ}
    (hv : evaluate f i = .accept v) : Solver1.simpson f i = v := by
  unfold Solver1.simpson
  rw [Solver1.simpsonRun_accept_eq (depth i) hv]
  rfl

lemma simpson1_split {f : ℚ → ℚ} {i j k : Interval}
    (hv : evaluate f i = .split j k) :
    Solver1.simpson f i = Solver1.simpson f j + Solver1.simpson f k := by
  have hj := depth_split_left hv
  have hk := depth_split_right hv
  have hjt := Solver1.simpsonRun_total f (i := j) (n := depth j + 1) (by omega)
  have hkt := Solver1.simpsonRun_total f (i := k) (n := depth k + 1) (by omega)
  rcases Option.isSome_iff_exists.mp hjt with ⟨a, ha⟩
  rcases Option.isSome_iff_exists.mp hkt with ⟨b, hb⟩
  have hj2 : Solver1.simpsonRun f (depth i) j = some a := by
    rw [Solver1.simpsonRun_stable f (by omega) (by omega : depth j < depth j + 1)]
    exact ha
  have hk2 : Solver1.simpsonRun f (depth i) k = some b := by
    rw [Solver1.simpsonRun_stable f (by omega) (by omega : depth k < depth k + 1)]
    exact hb
  unfold Solver1.simpson
  rw [Solver1.simpsonRun_split_eq (depth i) hv, hj2, hk2, ha, hb]
  rfl

/-- Strategy A's result is the sum of the accepted estimates of the
recursion tree. -/
lemma simpson1_eq_sum (f : ℚ → ℚ) (i : Interval) :
    Solver1.simpson f i = ((accMS f i).map Prod.snd).sum := by
  have H : ∀ n (i : Interval), depth i ≤ n →
      Solver1.simpson f i = ((accMS f i).map Prod.snd).sum := by
    intro n
    induction n with
    | zero =>
      intro i hi
      cases hv : evaluate f i with
      | accept v =>
        rw [simpson1_accept hv, (simpsonTree_accept hv).1]
        simp
      | split j k =>
        have := depth_split_left hv
        omega
    | succ n ih =>
      intro i hi
      cases hv : evaluate f i with
      | accept v =>
        rw [simpson1_accept hv, (simpsonTree_accept hv).1]
        simp
      | split j k =>
        rw [simpson1_split hv, (simpsonTree_split hv).1]
        have hj := depth_split_left hv
        have hk := depth_split_right hv
        rw [ih j (by omega), ih k (by omega)]
        simp
  exact H (depth i) i le_rfl

/-! ## The bounded LIFO work store

`struct Queue` with `enqueue` / `dequeue` / `initialize` / `isempty` /
`size` of `solver2_shared.c` and `solver2_separate.c` (the two files'
versions differ only in the `omp atomic` pragma on the `top` update, which
is invisible to sequential semantics).  `exit(1)` becomes `Except.error`
carrying the printed message. -/

/-- `#define MAXQUEUE 10000`. -/
def MAXQUEUE : ℤ := 10000

/-- `struct Queue`: array of entries plus index of the last entry.
The `int16_t top` index is modelled as an unbounded integer; the guards
keep it within `int16_t` range whenever the invariant below holds. -/
structure Queue where
  entry : ℕ → Interval
  top : ℤ

/-- `void enqueue(struct Interval interval, struct Queue *queue_p)`. -/
def enqueue (interval : Interval) (queue_p : Queue) : Except String Queue :=
  if queue_p.top = MAXQUEUE - 1 then
    .error "Maximum queue size exceeded - exiting"
  else
    .ok { entry := Function.update queue_p.entry (queue_p.top + 1).toNat interval,
          top := queue_p.top + 1 }

/-- `struct Interval dequeue(struct Queue *queue_p)`. -/
def dequeue (queue_p : Queue) : Except String (Interval × Queue) :=
  if queue_p.top = -1 then
    .error "Attempt to extract from empty queue - exiting"
  else
    .ok (queue_p.entry queue_p.top.toNat, { queue_p with top := queue_p.top - 1 })

/-- `void initialize(struct Queue *queue_p)` (the lock-handle part of the
struct is not data). -/
def initQueue (queue_p : Queue) : Queue := { queue_p with top := -1 }

/-- `int isempty(struct Queue *queue_p)`. -/
def isempty (queue_p : Queue) : Bool := queue_p.top = -1

/-- `int size(struct Queue *queue_p)`. -/
def size (queue_p : Queue) : ℤ := queue_p.top + 1

/-- The store invariant of spec §3: `-1 (empty) ≤ top ≤ capacity-1`. -/
def QueueInv (queue_p : Queue) : Prop :=
  -1 ≤ queue_p.top ∧ queue_p.top ≤ MAXQUEUE - 1

/-! ## Generic helpers for sums over workers -/

lemma sum_comp_update_int {W : ℕ} {α : Type} (φ : Fin W → α) (κ : α → ℤ)
    (w : Fin W) (p : α) :
    (∑ v, κ (Function.update φ w p v)) = (∑ v, κ (φ v)) - κ (φ w) + κ p := by
  classical
  have h : ∀ v, κ (Function.update φ w p v) =
      Function.update (fun u => κ (φ u)) w (κ p) v := by
    intro v
    by_cases hv : v = w
    · subst hv; simp
    · rw [Function.update_noteq hv, Function.update_noteq hv]
  rw [Finset.sum_congr rfl fun v _ => h v,
    Finset.sum_update_of_mem (Finset.mem_univ w), Finset.sdiff_singleton_eq_erase,
    Finset.sum_erase_eq_sub (Finset.mem_univ w)]
  ring

lemma sum_comp_update_add {W : ℕ} {α : Type} {M : Type} [AddCommMonoid M]
    (φ : Fin W → α) (κ : α → M) (w : Fin W) (p : α) :
    (∑ v, κ (Function.update φ w p v)) + κ (φ w) = (∑ v, κ (φ v)) + κ p := by
  classical
  have h : ∀ v, κ (Function.update φ w p v) =
      Function.update (fun u => κ (φ u)) w (κ p) v := by
    intro v
    by_cases hv : v = w
    · subst hv; simp
    · rw [Function.update_noteq hv, Function.update_noteq hv]
  rw [Finset.sum_congr rfl fun v _ => h v,
    Finset.sum_update_of_mem (Finset.mem_univ w), Finset.sdiff_singleton_eq_erase,
    ← Finset.add_sum_erase _ (fun u => κ (φ u)) (Finset.mem_univ w)]
  abel

lemma single_le_sum_int {W : ℕ} {α : Type} (φ : Fin W → α) (κ : α → ℤ)
    (hκ : ∀ p, 0 ≤ κ p) (w : Fin W) :
    κ (φ w) ≤ ∑ v, κ (φ v) :=
  Finset.single_le_sum (fun v _ => hκ (φ v)) (Finset.mem_univ w)

/-! ## Strategy B: `simpson` of `solver2_shared.c` as a transition system

One worker loop iteration decomposes into atomic steps:
the whole `omp_set_lock` … `omp_unset_lock` block (pop + busy increment +
combined `done` check) is one step, the kernel run with its accumulation
or its locked double `enqueue` is one step, and the `omp atomic`
decrement is one step.  The pending LIFO stack is modelled as a list
(head = top); the capacity abort is verified separately on `Queue`. -/

/-- Control position of one worker inside the `solver2_shared.c` loop. -/
inductive PhaseB where
  /-- at the top of `while (1)`, about to run the locked block -/
  | idle
  /-- holding a dequeued interval, about to run the kernel -/
  | work (x : Interval)
  /-- interval fully processed, about to run `active_threads--` -/
  | decr
  /-- exited the loop -/
  | done
deriving DecidableEq

/-- Shared state of `solver2_shared.c`, plus the ghost multisets `acc`
(accepted pairs, what the `reduction(+: quad)` accumulators sum) and
`proc` (all intervals handed to the kernel). -/
structure StateB (W : ℕ) where
  queue : List Interval
  busy : ℤ
  phase : Fin W → PhaseB
  acc : Multiset (Interval × ℚ)
  proc : Multiset Interval

/-- Interleaving semantics of the Strategy B worker loop.  In the locked
block, `done = (isempty(queue_p) && active_threads == 0)` is computed in
the same critical section: after a successful pop `active_threads ≥ 1`
makes `done` false (constructor `pop`), and `exit` fires exactly when the
block finds the queue empty and the counter zero. -/
inductive StepB (f : ℚ → ℚ) {W : ℕ} : StateB W → StateB W → Prop where
  /-- locked block, non-empty queue: dequeue, `active_threads++`, `work = true` -/
  | pop (s : StateB W) (w : Fin W) (x : Interval) (rest : List Interval) :
      s.phase w = .idle → s.queue = x :: rest →
      StepB f s { s with queue := rest, busy := s.busy + 1,
                         phase := Function.update s.phase w (.work x) }
  /-- locked block, empty queue and `active_threads == 0`: `done`, break -/
  | exit (s : StateB W) (w : Fin W) :
      s.phase w = .idle → s.queue = [] → s.busy = 0 →
      StepB f s { s with phase := Function.update s.phase w .done }
  /-- locked block, empty queue but workers busy: `continue` (busy-wait) -/
  | spin (s : StateB W) (w : Fin W) :
      s.phase w = .idle → s.queue = [] → s.busy ≠ 0 →
      StepB f s s
  /-- kernel accepts: `quad += q2 + (q2 - q1) / 15.0` -/
  | accept (s : StateB W) (w : Fin W) (x : Interval) (v : ℚ) :
      s.phase w = .work x → evaluate f x = .accept v →
      StepB f s { s with phase := Function.update s.phase w .decr,
                         acc := (x, v) ::ₘ s.acc, proc := x ::ₘ s.proc }
  /-- kernel splits: locked `enqueue(i1); enqueue(i2)` (so `i2` on top) -/
  | split (s : StateB W) (w : Fin W) (x j k : Interval) :
      s.phase w = .work x → evaluate f x = .split j k →
      StepB f s { s with queue := k :: j :: s.queue,
                         phase := Function.update s.phase w .decr,
                         proc := x ::ₘ s.proc }
  /-- `#pragma omp atomic` `active_threads--` -/
  | dec (s : StateB W) (w : Fin W) :
      s.phase w = .decr →
      StepB f s { s with busy := s.busy - 1,
                         phase := Function.update s.phase w .idle }

/-- Start state of Strategy B: `main` enqueues the whole interval, then
all workers enter the loop. -/
def initB (W : ℕ) (root : Interval) : StateB W :=
  ⟨[root], 0, fun _ => .idle, 0, 0⟩

/-- Reachability for the Strategy B system. -/
def ReachableB (f : ℚ → ℚ) {W : ℕ} (s0 s : StateB W) : Prop :=
  Relation.ReflTransGen (StepB f) s0 s

/-- Busy-counter contribution of one worker: 1 from the moment of its
`active_threads++` (pop) to the moment of its `active_threads--`. -/
def holdB : PhaseB → ℤ
  | .work _ => 1
  | .decr => 1
  | _ => 0

/-- Interval held unprocessed by one worker. -/
def heldB : PhaseB → Multiset Interval
  | .work x => {x}
  | _ => 0

/-- All intervals pending anywhere: in the queue or held by a worker. -/
def outB {W : ℕ} (s : StateB W) : Multiset Interval :=
  (s.queue : Multiset Interval) + ∑ w, heldB (s.phase w)

/-- All workers have exited the loop. -/
def AllDoneB {W : ℕ} (s : StateB W) : Prop := ∀ w, s.phase w = .done

/-- Global invariant of Strategy B: the busy counter counts exactly the
workers holding work; accepted plus pending accounts for the whole
recursion tree; once any worker has exited, everything is finished. -/
def InvB (f : ℚ → ℚ) (root : Interval) {W : ℕ} (s : StateB W) : Prop :=
  s.busy = (∑ w, holdB (s.phase w))
  ∧ s.acc + (outB s).bind (fun i => accMS f i) = accMS f root
  ∧ s.proc + (outB s).bind (fun i => procMS f i) = procMS f root
  ∧ ((∃ w, s.phase w = .done) → s.queue = [] ∧ s.busy = 0)

lemma holdB_nonneg : ∀ p, 0 ≤ holdB p := by
  intro p
  cases p <;> simp [holdB]

lemma InvB_init (f : ℚ → ℚ) (root : Interval) (W : ℕ) :
    InvB f root (initB W root) := by
  refine ⟨?_, ?_, ?_, ?_⟩
  · simp [initB, holdB]
  · simp [initB, outB, heldB]
  · simp [initB, outB, heldB]
  · rintro ⟨w, hw⟩
    simp [initB] at hw

lemma InvB_step {f : ℚ → ℚ} {root : Interval} {W : ℕ} {s s' : StateB W}
    (hs : InvB f root s) (hstep : StepB f s s') : InvB f root s' := by
  obtain ⟨h1, h2, h3, h4⟩ := hs
  cases hstep with
  | pop w x rest hw hq =>
    have Hh := sum_comp_update_int s.phase holdB w (PhaseB.work x)
    rw [hw] at Hh
    have Hm := sum_comp_update_add s.phase heldB w (PhaseB.work x)
    rw [hw] at Hm
    have Hm2 : (∑ v, heldB (Function.update s.phase w (PhaseB.work x) v)) =
        (∑ v, heldB (s.phase v)) + {x} := by
      simpa [heldB] using Hm
    have hout : (rest : Multiset Interval) +
        (∑ v, heldB (Function.update s.phase w (PhaseB.work x) v)) = outB s := by
      rw [Hm2, outB, hq, ← Multiset.cons_coe, ← Multiset.singleton_add]
      abel
    refine ⟨?_, ?_, ?_, ?_⟩
    · show s.busy + 1 = ∑ v, holdB (Function.update s.phase w (PhaseB.work x) v)
      rw [Hh, ← h1]
      simp [holdB]
    · show s.acc + ((rest : Multiset Interval) +
        (∑ v, heldB (Function.update s.phase w (PhaseB.work x) v))).bind
          (fun i => accMS f i) = accMS f root
      rw [hout]
      exact h2
    · show s.proc + ((rest : Multiset Interval) +
        (∑ v, heldB (Function.update s.phase w (PhaseB.work x) v))).bind
          (fun i => procMS f i) = procMS f root
      rw [hout]
      exact h3
    · rintro ⟨w2, hw2⟩
      have hw2' : Function.update s.phase w (PhaseB.work x) w2 = PhaseB.done := hw2
      have hne : w2 ≠ w := by
        intro he
        subst he
        rw [Function.update_same] at hw2'
        cases hw2'
      rw [Function.update_noteq hne] at hw2'
      have := (h4 ⟨w2, hw2'⟩).1
      rw [hq] at this
      cases this
  | exit w hw hq hb =>
    have Hh := sum_comp_update_int s.phase holdB w PhaseB.done
    rw [hw] at Hh
    have Hm := sum_comp_update_add s.phase heldB w PhaseB.done
    rw [hw] at Hm
    have Hm2 : (∑ v, heldB (Function.update s.phase w PhaseB.done v)) =
        ∑ v, heldB (s.phase v) := by
      simpa [heldB] using Hm
    have hout : (s.queue : Multiset Interval) +
        (∑ v, heldB (Function.update s.phase w PhaseB.done v)) = outB s := by
      rw [Hm2]
      rfl
    refine ⟨?_, ?_, ?_, ?_⟩
    · show s.busy = ∑ v, holdB (Function.update s.phase w PhaseB.done v)
      rw [Hh]
      simp [holdB, h1]
    · show s.acc + ((s.queue : Multiset Interval) +
        (∑ v, heldB (Function.update s.phase w PhaseB.done v))).bind
          (fun i => accMS f i) = accMS f root
      rw [hout]
      exact h2
    · show s.proc + ((s.queue : Multiset Interval) +
        (∑ v, heldB (Function.update s.phase w PhaseB.done v))).bind
          (fun i => procMS f i) = procMS f root
      rw [hout]
      exact h3
    · intro _
      exact ⟨hq, hb⟩
  | spin w hw hq hb =>
    exact ⟨h1, h2, h3, h4⟩
  | accept w x v hw hv =>
    have Hh := sum_comp_update_int s.phase holdB w PhaseB.decr
    rw [hw] at Hh
    have Hm := sum_comp_update_add s.phase heldB w PhaseB.decr
    rw [hw] at Hm
    have Hm2 : (∑ v2, heldB (Function.update s.phase w PhaseB.decr v2)) + {x} =
        ∑ v2, heldB (s.phase v2) := by
      simpa [heldB] using Hm
    have hout : outB s = ((s.queue : Multiset Interval) +
        (∑ v2, heldB (Function.update s.phase w PhaseB.decr v2))) + {x} := by
      rw [outB, ← Hm2]
      abel
    have hacc : accMS f x = {(x, v)} := (simpsonTree_accept hv).1
    have hproc : procMS f x = {x} := (simpsonTree_accept hv).2
    refine ⟨?_, ?_, ?_, ?_⟩
    · show s.busy = ∑ v2, holdB (Function.update s.phase w PhaseB.decr v2)
      rw [Hh]
      simp [holdB, h1]
    · show (x, v) ::ₘ s.acc + ((s.queue : Multiset Interval) +
        (∑ v2, heldB (Function.update s.phase w PhaseB.decr v2))).bind
          (fun i => accMS f i) = accMS f root
      rw [← h2, hout]
      simp only [Multiset.add_bind, Multiset.singleton_bind, hacc]
      rw [← Multiset.singleton_add]
      abel
    · show x ::ₘ s.proc + ((s.queue : Multiset Interval) +
        (∑ v2, heldB (Function.update s.phase w PhaseB.decr v2))).bind
          (fun i => procMS f i) = procMS f root
      rw [← h3, hout]
      simp only [Multiset.add_bind, Multiset.singleton_bind, hproc]
      rw [← Multiset.singleton_add]
      abel
    · rintro ⟨w2, hw2⟩
      have hw2' : Function.update s.phase w PhaseB.decr w2 = PhaseB.done := hw2
      have hne : w2 ≠ w := by
        intro he
        subst he
        rw [Function.update_same] at hw2'
        cases hw2'
      rw [Function.update_noteq hne] at hw2'
      have hb0 := (h4 ⟨w2, hw2'⟩).2
      have hge := single_le_sum_int s.phase holdB holdB_nonneg w
      rw [hw] at hge
      rw [h1] at hb0
      rw [show holdB (PhaseB.work x) = 1 from rfl] at hge
      omega
  | split w x j k hw hv =>
    have Hh := sum_comp_update_int s.phase holdB w PhaseB.decr
    rw [hw] at Hh
    have Hm := sum_comp_update_add s.phase heldB w PhaseB.decr
    rw [hw] at Hm
    have Hm2 : (∑ v2, heldB (Function.update s.phase w PhaseB.decr v2)) + {x} =
        ∑ v2, heldB (s.phase v2) := by
      simpa [heldB] using Hm
    have hout : (((k :: j :: s.queue : List Interval) : Multiset Interval) +
          (∑ v2, heldB (Function.update s.phase w PhaseB.decr v2))) + {x} =
        outB s + {j} + {k} := by
      rw [outB, ← Hm2, ← Multiset.cons_coe, ← Multiset.cons_coe,
        ← Multiset.singleton_add, ← Multiset.singleton_add]
      abel
    have haccx : accMS f x = accMS f j + accMS f k := (simpsonTree_split hv).1
    have hprocx : procMS f x = x ::ₘ (procMS f j + procMS f k) :=
      (simpsonTree_split hv).2
    refine ⟨?_, ?_, ?_, ?_⟩
    · show s.busy = ∑ v2, holdB (Function.update s.phase w PhaseB.decr v2)
      rw [Hh]
      simp [holdB, h1]
    · show s.acc + (((k :: j :: s.queue : List Interval) : Multiset Interval) +
        (∑ v2, heldB (Function.update s.phase w PhaseB.decr v2))).bind
          (fun i => accMS f i) = accMS f root
      have hb := congrArg (fun m => Multiset.bind m (fun i => accMS f i)) hout
      simp only [Multiset.add_bind, Multiset.singleton_bind] at hb
      rw [haccx] at hb
      have hb2 : (((k :: j :: s.queue : List Interval) : Multiset Interval) +
          (∑ v2, heldB (Function.update s.phase w PhaseB.decr v2))).bind
            (fun i => accMS f i) =
          (outB s).bind (fun i => accMS f i) := by
        have h5 : (((k :: j :: s.queue : List Interval) : Multiset Interval) +
            (∑ v2, heldB (Function.update s.phase w PhaseB.decr v2))).bind
              (fun i => accMS f i) + (accMS f j + accMS f k) =
            (outB s).bind (fun i => accMS f i) + (accMS f j + accMS f k) := by
          simp only [Multiset.add_bind]
          rw [← add_assoc] at hb
          rw [← add_assoc, ← add_assoc]
          exact hb
        exact add_right_cancel h5
      rw [hb2]
      exact h2
    · show x ::ₘ s.proc + (((k :: j :: s.queue : List Interval) : Multiset Interval) +
        (∑ v2, heldB (Function.update s.phase w PhaseB.decr v2))).bind
          (fun i => procMS f i) = procMS f root
      have hb := congrArg (fun m => Multiset.bind m (fun i => procMS f i)) hout
      simp only [Multiset.add_bind, Multiset.singleton_bind] at hb
      rw [hprocx] at hb
      rw [← Multiset.singleton_add] at hb
      have hb2 : (((k :: j :: s.queue : List Interval) : Multiset Interval) +
          (∑ v2, heldB (Function.update s.phase w PhaseB.decr v2))).bind
            (fun i => procMS f i) + {x} =
          (outB s).bind (fun i => procMS f i) := by
        have h5 : (((k :: j :: s.queue : List Interval) : Multiset Interval) +
            (∑ v2, heldB (Function.update s.phase w PhaseB.decr v2))).bind
              (fun i => procMS f i) + {x} + (procMS f j + procMS f k) =
            (outB s).bind (fun i => procMS f i) + (procMS f j + procMS f k) := by
          simp only [Multiset.add_bind]
          rw [← add_assoc, ← add_assoc] at hb
          rw [← add_assoc, ← add_assoc]
          exact hb
        exact add_right_cancel h5
      rw [← h3, ← hb2]
      rw [← Multiset.singleton_add]
      abel
    · rintro ⟨w2, hw2⟩
      have hw2' : Function.update s.phase w PhaseB.decr w2 = PhaseB.done := hw2
      have hne : w2 ≠ w := by
        intro he
        subst he
        rw [Function.update_same] at hw2'
        cases hw2'
      rw [Function.update_noteq hne] at hw2'
      have hb0 := (h4 ⟨w2, hw2'⟩).2
      have hge := single_le_sum_int s.phase holdB holdB_nonneg w
      rw [hw] at hge
      rw [h1] at hb0
      rw [show holdB (PhaseB.work x) = 1 from rfl] at hge
      omega
  | dec w hw =>
    have Hh := sum_comp_update_int s.phase holdB w PhaseB.idle
    rw [hw] at Hh
    have Hm := sum_comp_update_add s.phase heldB w PhaseB.idle
    rw [hw] at Hm
    have Hm2 : (∑ v, heldB (Function.update s.phase w PhaseB.idle v)) =
        ∑ v, heldB (s.phase v) := by
      simpa [heldB] using Hm
    have hout : (s.queue : Multiset Interval) +
        (∑ v, heldB (Function.update s.phase w PhaseB.idle v)) = outB s := by
      rw [Hm2]
      rfl
    refine ⟨?_, ?_, ?_, ?_⟩
    · show s.busy - 1 = ∑ v, holdB (Function.update s.phase w PhaseB.idle v)
      rw [Hh]
      simp [holdB, h1]
    · show s.acc + ((s.queue : Multiset Interval) +
        (∑ v, heldB (Function.update s.phase w PhaseB.idle v))).bind
          (fun i => accMS f i) = accMS f root
      rw [hout]
      exact h2
    · show s.proc + ((s.queue : Multiset Interval) +
        (∑ v, heldB (Function.update s.phase w PhaseB.idle v))).bind
          (fun i => procMS f i) = procMS f root
      rw [hout]
      exact h3
    · rintro ⟨w2, hw2⟩
      have hw2' : Function.update s.phase w PhaseB.idle w2 = PhaseB.done := hw2
      have hne : w2 ≠ w := by
        intro he
        subst he
        rw [Function.update_same] at hw2'
        cases hw2'
      rw [Function.update_noteq hne] at hw2'
      have hb0 := (h4 ⟨w2, hw2'⟩).2
      have hge := single_le_sum_int s.phase holdB holdB_nonneg w
      rw [hw] at hge
      rw [h1] at hb0
      rw [show holdB PhaseB.decr = 1 from rfl] at hge
      omega

/-- Every reachable state of Strategy B satisfies the invariant. -/
lemma InvB_reachable {f : ℚ → ℚ} {root : Interval} {W : ℕ} {s : StateB W}
    (hr : ReachableB f (initB W root) s) : InvB f root s := by
  induction hr with
  | refl => exact InvB_init f root W
  | tail hab hbc ih => exact InvB_step ih hbc

/-! ## Strategy C: `simpson` of `solver2_separate.c` as a transition system

Per-worker stores with round-robin work stealing.  The locked local pop,
each `omp_test_lock`-guarded steal attempt and the locked double enqueue
are single atomic steps; the *unlocked* termination check
`terminate = (isempty(local_queue) && active_threads == 0)` (line 168) is
two separate read steps: `readEmpty` records the own-store emptiness bit,
and the following step reads the busy counter.  A failed `omp_test_lock`
is the nondeterministic `stealSkip` step. -/

/-- Control position of one worker inside the `solver2_separate.c` loop. -/
inductive PhaseC where
  /-- top of `while (1)`, about to try the locked local pop -/
  | idle
  /-- in the steal loop, next victim offset `k` (own index + k mod W) -/
  | scanning (k : ℕ)
  /-- about to read `isempty(local_queue)`; `o` is the interval obtained
  by the local pop or the steal, if any -/
  | checkE (o : Option Interval)
  /-- emptiness bit `e` read, about to read `active_threads` -/
  | checkB (o : Option Interval) (e : Bool)
  /-- holding an interval, about to run the kernel -/
  | processing (x : Interval)
  /-- interval fully processed, about to run `active_threads--` -/
  | decr
  /-- exited the loop -/
  | done
deriving DecidableEq

/-- Shared state of `solver2_separate.c` plus the ghost multisets. -/
structure StateC (W : ℕ) where
  queues : Fin W → List Interval
  busy : ℤ
  phase : Fin W → PhaseC
  acc : Multiset (Interval × ℚ)
  proc : Multiset Interval

/-- `other_thread_id = (thread_id + attempt) % queues_size`. -/
def victim {W : ℕ} (w : Fin W) (k : ℕ) : Fin W :=
  ⟨(w.1 + k) % W, Nat.mod_lt _ w.pos⟩

/-- Interleaving semantics of the Strategy C worker loop. -/
inductive StepC (f : ℚ → ℚ) {W : ℕ} : StateC W → StateC W → Prop where
  /-- locked local block, own store non-empty: pop, `active_threads++` -/
  | popLocal (s : StateC W) (w : Fin W) (x : Interval) (rest : List Interval) :
      s.phase w = .idle → s.queues w = x :: rest →
      StepC f s { s with queues := Function.update s.queues w rest,
                         busy := s.busy + 1,
                         phase := Function.update s.phase w (.checkE (some x)) }
  /-- locked local block, own store empty: enter the steal loop; `attempt = 0`
  is the worker's own index and is skipped by the `continue` -/
  | noLocal (s : StateC W) (w : Fin W) :
      s.phase w = .idle → s.queues w = [] →
      StepC f s { s with phase := Function.update s.phase w (.scanning 1) }
  /-- `omp_test_lock` on the victim's store failed: skip it, try the next -/
  | stealSkip (s : StateC W) (w : Fin W) (k : ℕ) :
      s.phase w = .scanning k → k < W →
      StepC f s { s with phase := Function.update s.phase w (.scanning (k + 1)) }
  /-- lock acquired but the victim's store is empty: release, try the next -/
  | stealEmpty (s : StateC W) (w : Fin W) (k : ℕ) :
      s.phase w = .scanning k → k < W → s.queues (victim w k) = [] →
      StepC f s { s with phase := Function.update s.phase w (.scanning (k + 1)) }
  /-- lock acquired on a non-empty victim store: pop one interval,
  `active_threads++`, release, break out of the steal loop -/
  | stealPop (s : StateC W) (w : Fin W) (k : ℕ) (x : Interval) (rest : List Interval) :
      s.phase w = .scanning k → k < W → s.queues (victim w k) = x :: rest →
      StepC f s { s with queues := Function.update s.queues (victim w k) rest,
                         busy := s.busy + 1,
                         phase := Function.update s.phase w (.checkE (some x)) }
  /-- steal loop exhausted without work -/
  | scanEnd (s : StateC W) (w : Fin W) :
      s.phase w = .scanning W →
      StepC f s { s with phase := Function.update s.phase w (.checkE none) }
  /-- first read of the unlocked check: `isempty(local_queue)` -/
  | readEmpty (s : StateC W) (w : Fin W) (o : Option Interval) :
      s.phase w = .checkE o →
      StepC f s { s with phase := Function.update s.phase w
                           (.checkB o (decide (s.queues w = []))) }
  /-- second read: `active_threads == 0`; both conjuncts true, break -/
  | exitLoop (s : StateC W) (w : Fin W) (o : Option Interval) :
      s.phase w = .checkB o true → s.busy = 0 →
      StepC f s { s with phase := Function.update s.phase w .done }
  /-- second read with work in hand, check false: process the interval -/
  | contWork (s : StateC W) (w : Fin W) (x : Interval) (e : Bool) :
      s.phase w = .checkB (some x) e → (e = false ∨ s.busy ≠ 0) →
      StepC f s { s with phase := Function.update s.phase w (.processing x) }
  /-- second read without work, check false: `continue` (busy-wait) -/
  | contIdle (s : StateC W) (w : Fin W) (e : Bool) :
      s.phase w = .checkB none e → (e = false ∨ s.busy ≠ 0) →
      StepC f s { s with phase := Function.update s.phase w .idle }
  /-- kernel accepts: `quad += q2 + (q2 - q1) / 15.0` -/
  | acceptStep (s : StateC W) (w : Fin W) (x : Interval) (v : ℚ) :
      s.phase w = .processing x → evaluate f x = .accept v →
      StepC f s { s with phase := Function.update s.phase w .decr,
                         acc := (x, v) ::ₘ s.acc, proc := x ::ₘ s.proc }
  /-- kernel splits: locked `enqueue(i1, local_queue); enqueue(i2, local_queue)`
  onto the splitting worker's own store -/
  | splitStep (s : StateC W) (w : Fin W) (x j k : Interval) :
      s.phase w = .processing x → evaluate f x = .split j k →
      StepC f s { s with queues := Function.update s.queues w (k :: j :: s.queues w),
                         phase := Function.update s.phase w .decr,
                         proc := x ::ₘ s.proc }
  /-- `#pragma omp atomic` `active_threads--` -/
  | decStep (s : StateC W) (w : Fin W) :
      s.phase w = .decr →
      StepC f s { s with busy := s.busy - 1,
                         phase := Function.update s.phase w .idle }

/-- Start state of Strategy C: `main` enqueues the whole interval into
worker 0's store (`enqueue(whole, &queues[0])`). -/
def initC (W : ℕ) (hW : 0 < W) (root : Interval) : StateC W :=
  ⟨Function.update (fun _ => []) ⟨0, hW⟩ [root], 0, fun _ => .idle, 0, 0⟩

/-- Reachability for the Strategy C system. -/
def ReachableC (f : ℚ → ℚ) {W : ℕ} (s0 s : StateC W) : Prop :=
  Relation.ReflTransGen (StepC f) s0 s

/-- Busy-counter contribution of one worker: 1 from its
`active_threads++` to its `active_threads--`. -/
def holdC : PhaseC → ℤ
  | .checkE (some _) => 1
  | .checkB (some _) _ => 1
  | .processing _ => 1
  | .decr => 1
  | _ => 0

/-- Interval held unprocessed by one worker. -/
def heldC : PhaseC → Multiset Interval
  | .checkE (some x) => {x}
  | .checkB (some x) _ => {x}
  | .processing x => {x}
  | _ => 0

/-- All intervals pending anywhere: in some store or held by a worker. -/
def outC {W : ℕ} (s : StateC W) : Multiset Interval :=
  (∑ v, (s.queues v : Multiset Interval)) + ∑ v, heldC (s.phase v)

/-- All workers have exited the loop. -/
def AllDoneC {W : ℕ} (s : StateC W) : Prop := ∀ w, s.phase w = .done

/-- Global invariant of Strategy C. -/
def InvC (f : ℚ → ℚ) (root : Interval) {W : ℕ} (s : StateC W) : Prop :=
  s.busy = (∑ v, holdC (s.phase v))
  ∧ s.acc + (outC s).bind (fun i => accMS f i) = accMS f root
  ∧ s.proc + (outC s).bind (fun i => procMS f i) = procMS f root
  ∧ (∀ w o, s.phase w = .checkB o true → s.queues w = [])
  ∧ (∀ w, s.phase w = .done → s.queues w = [])
  ∧ (∀ w k, s.phase w = .scanning k → 1 ≤ k ∧ k ≤ W)

lemma holdC_nonneg : ∀ p, 0 ≤ holdC p := by
  intro p
  cases p with
  | checkE o => cases o <;> simp [holdC]
  | checkB o e => cases o <;> simp [holdC]
  | _ => simp [holdC]

/-- The steal scan never inspects the thief's own store. -/
lemma victim_ne {W : ℕ} (w : Fin W) (k : ℕ) (h1 : 1 ≤ k) (h2 : k < W) :
    victim w k ≠ w := by
  intro he
  have hval : (w.1 + k) % W = w.1 := congrArg Fin.val he
  have hwlt : w.1 < W := w.2
  rcases Nat.lt_or_ge (w.1 + k) W with hlt | hge
  · rw [Nat.mod_eq_of_lt hlt] at hval
    omega
  · have hsub : (w.1 + k) % W = (w.1 + k - W) % W := Nat.mod_eq_sub_mod hge
    have hlt2 : w.1 + k - W < W := by omega
    rw [hsub, Nat.mod_eq_of_lt hlt2] at hval
    omega

lemma update_eq_cases {α β : Type} [DecidableEq α] {φ : α → β} {w w2 : α} {p x : β}
    (h : Function.update φ w p w2 = x) :
    (w2 = w ∧ p = x) ∨ (w2 ≠ w ∧ φ w2 = x) := by
  by_cases he : w2 = w
  · subst he
    rw [Function.update_same] at h
    exact Or.inl ⟨rfl, h⟩
  · rw [Function.update_noteq he] at h
    exact Or.inr ⟨he, h⟩

lemma sum_queues_update {W : ℕ} (qs : Fin W → List Interval) (u : Fin W)
    (rest : List Interval) {x : Interval} (hq : qs u = x :: rest) :
    (∑ v, ((Function.update qs u rest v : List Interval) : Multiset Interval)) + {x} =
      ∑ v, ((qs v : List Interval) : Multiset Interval) := by
  have H := sum_comp_update_add qs (fun l => (l : Multiset Interval)) u rest
  rw [hq] at H
  rw [← Multiset.cons_coe, ← Multiset.singleton_add] at H
  rw [← add_assoc] at H
  exact add_right_cancel H

lemma sum_queues_push {W : ℕ} (qs : Fin W → List Interval) (u : Fin W)
    (j k : Interval) :
    (∑ v, ((Function.update qs u (k :: j :: qs u) v : List Interval) : Multiset Interval)) =
      (∑ v, ((qs v : List Interval) : Multiset Interval)) + {j} + {k} := by
  have H := sum_comp_update_add qs (fun l => (l : Multiset Interval)) u (k :: j :: qs u)
  rw [← Multiset.cons_coe, ← Multiset.cons_coe, ← Multiset.singleton_add,
    ← Multiset.singleton_add] at H
  have H2 : (∑ v, ((Function.update qs u (k :: j :: qs u) v : List Interval) :
        Multiset Interval)) + ((qs u : List Interval) : Multiset Interval) =
      ((∑ v, ((qs v : List Interval) : Multiset Interval)) + {j} + {k}) +
        ((qs u : List Interval) : Multiset Interval) := by
    rw [H]
    abel
  exact add_right_cancel H2

/-- Invariant preservation for the steps that change only the control
position of one worker, keeping its busy contribution and held interval. -/
lemma InvC_phase_only {f : ℚ → ℚ} {root : Interval} {W : ℕ} {s : StateC W}
    (hs : InvC f root s) (w : Fin W) (p : PhaseC)
    (hhold : holdC p = holdC (s.phase w))
    (hheld : heldC p = heldC (s.phase w))
    (hJ4 : ∀ w2 o, Function.update s.phase w p w2 = PhaseC.checkB o true →
      s.queues w2 = [])
    (hJ5 : ∀ w2, Function.update s.phase w p w2 = PhaseC.done → s.queues w2 = [])
    (hJ6 : ∀ w2 k, Function.update s.phase w p w2 = PhaseC.scanning k →
      1 ≤ k ∧ k ≤ W) :
    InvC f root { s with phase := Function.update s.phase w p } := by
  obtain ⟨h1, h2, h3, h4, h5, h6⟩ := hs
  have Hh := sum_comp_update_int s.phase holdC w p
  rw [hhold] at Hh
  have Hh2 : (∑ v, holdC (Function.update s.phase w p v)) =
      ∑ v, holdC (s.phase v) := by
    rw [Hh]
    ring
  have Hm := sum_comp_update_add s.phase heldC w p
  rw [hheld] at Hm
  have Hm2 : (∑ v, heldC (Function.update s.phase w p v)) =
      ∑ v, heldC (s.phase v) :=
    add_right_cancel Hm
  unfold InvC
  dsimp only [outC]
  refine ⟨?_, ?_, ?_, hJ4, hJ5, hJ6⟩
  · rw [Hh2]
    exact h1
  · rw [Hm2]
    exact h2
  · rw [Hm2]
    exact h3

lemma InvC_step {f : ℚ → ℚ} {root : Interval} {W : ℕ} {s s2 : StateC W}
    (hs : InvC f root s) (hstep : StepC f s s2) : InvC f root s2 := by
  obtain ⟨h1, h2, h3, h4, h5, h6⟩ := hs
  cases hstep with
  | popLocal w x rest hw hq =>
    have Hh := sum_comp_update_int s.phase holdC w (PhaseC.checkE (some x))
    rw [hw] at Hh
    rw [show holdC PhaseC.idle = 0 from rfl,
      show holdC (PhaseC.checkE (some x)) = 1 from rfl] at Hh
    have Hm := sum_comp_update_add s.phase heldC w (PhaseC.checkE (some x))
    rw [hw] at Hm
    have Hm2 : (∑ v, heldC (Function.update s.phase w (PhaseC.checkE (some x)) v)) =
        (∑ v, heldC (s.phase v)) + {x} := by
      simpa [heldC] using Hm
    have Hq := sum_queues_update s.queues w rest hq
    have hout : (∑ v, ((Function.update s.queues w rest v : List Interval) :
          Multiset Interval)) +
        (∑ v, heldC (Function.update s.phase w (PhaseC.checkE (some x)) v)) =
        outC s := by
      rw [Hm2, outC, ← Hq]
      abel
    unfold InvC
    dsimp only [outC]
    refine ⟨?_, ?_, ?_, ?_, ?_, ?_⟩
    · rw [Hh, ← h1]
      ring
    · rw [hout]
      exact h2
    · rw [hout]
      exact h3
    · intro w2 o hcb
      rcases update_eq_cases hcb with ⟨he, hp⟩ | ⟨hne, hp⟩
      · exact PhaseC.noConfusion hp
      · rw [Function.update_noteq hne]
        exact h4 w2 o hp
    · intro w2 hdone
      rcases update_eq_cases hdone with ⟨he, hp⟩ | ⟨hne, hp⟩
      · exact PhaseC.noConfusion hp
      · rw [Function.update_noteq hne]
        exact h5 w2 hp
    · intro w2 k hscan
      rcases update_eq_cases hscan with ⟨he, hp⟩ | ⟨hne, hp⟩
      · exact PhaseC.noConfusion hp
      · exact h6 w2 k hp
  | noLocal w hw hq =>
    refine InvC_phase_only ⟨h1, h2, h3, h4, h5, h6⟩ w (.scanning 1)
      (by rw [hw]; rfl) (by rw [hw]; rfl) ?_ ?_ ?_
    · intro w2 o hcb
      rcases update_eq_cases hcb with ⟨he, hp⟩ | ⟨hne, hp⟩
      · exact PhaseC.noConfusion hp
      · exact h4 w2 o hp
    · intro w2 hdone
      rcases update_eq_cases hdone with ⟨he, hp⟩ | ⟨hne, hp⟩
      · exact PhaseC.noConfusion hp
      · exact h5 w2 hp
    · intro w2 k hscan
      rcases update_eq_cases hscan with ⟨he, hp⟩ | ⟨hne, hp⟩
      · injection hp with hk
        have := w.pos
        omega
      · exact h6 w2 k hp
  | stealSkip w k hw hk =>
    refine InvC_phase_only ⟨h1, h2, h3, h4, h5, h6⟩ w (.scanning (k + 1))
      (by rw [hw]; rfl) (by rw [hw]; rfl) ?_ ?_ ?_
    · intro w2 o hcb
      rcases update_eq_cases hcb with ⟨he, hp⟩ | ⟨hne, hp⟩
      · exact PhaseC.noConfusion hp
      · exact h4 w2 o hp
    · intro w2 hdone
      rcases update_eq_cases hdone with ⟨he, hp⟩ | ⟨hne, hp⟩
      · exact PhaseC.noConfusion hp
      · exact h5 w2 hp
    · intro w2 k2 hscan
      rcases update_eq_cases hscan with ⟨he, hp⟩ | ⟨hne, hp⟩
      · injection hp with hk2
        omega
      · exact h6 w2 k2 hp
  | stealEmpty w k hw hk hq =>
    refine InvC_phase_only ⟨h1, h2, h3, h4, h5, h6⟩ w (.scanning (k + 1))
      (by rw [hw]; rfl) (by rw [hw]; rfl) ?_ ?_ ?_
    · intro w2 o hcb
      rcases update_eq_cases hcb with ⟨he, hp⟩ | ⟨hne, hp⟩
      · exact PhaseC.noConfusion hp
      · exact h4 w2 o hp
    · intro w2 hdone
      rcases update_eq_cases hdone with ⟨he, hp⟩ | ⟨hne, hp⟩
      · exact PhaseC.noConfusion hp
      · exact h5 w2 hp
    · intro w2 k2 hscan
      rcases update_eq_cases hscan with ⟨he, hp⟩ | ⟨hne, hp⟩
      · injection hp with hk2
        omega
      · exact h6 w2 k2 hp
  | stealPop w k x rest hw hk hq =>
    have Hh := sum_comp_update_int s.phase holdC w (PhaseC.checkE (some x))
    rw [hw] at Hh
    rw [show holdC (PhaseC.scanning k) = 0 from rfl,
      show holdC (PhaseC.checkE (some x)) = 1 from rfl] at Hh
    have Hm := sum_comp_update_add s.phase heldC w (PhaseC.checkE (some x))
    rw [hw] at Hm
    have Hm2 : (∑ v, heldC (Function.update s.phase w (PhaseC.checkE (some x)) v)) =
        (∑ v, heldC (s.phase v)) + {x} := by
      simpa [heldC] using Hm
    have Hq := sum_queues_update s.queues (victim w k) rest hq
    have hout : (∑ v, ((Function.update s.queues (victim w k) rest v : List Interval) :
          Multiset Interval)) +
        (∑ v, heldC (Function.update s.phase w (PhaseC.checkE (some x)) v)) =
        outC s := by
      rw [Hm2, outC, ← Hq]
      abel
    unfold InvC
    dsimp only [outC]
    refine ⟨?_, ?_, ?_, ?_, ?_, ?_⟩
    · rw [Hh, ← h1]
      ring
    · rw [hout]
      exact h2
    · rw [hout]
      exact h3
    · intro w2 o hcb
      rcases update_eq_cases hcb with ⟨he, hp⟩ | ⟨hne, hp⟩
      · exact PhaseC.noConfusion hp
      · have hq2 := h4 w2 o hp
        by_cases hv2 : w2 = victim w k
        · exfalso
          rw [hv2, hq] at hq2
          cases hq2
        · rw [Function.update_noteq hv2]
          exact hq2
    · intro w2 hdone
      rcases update_eq_cases hdone with ⟨he, hp⟩ | ⟨hne, hp⟩
      · exact PhaseC.noConfusion hp
      · have hq2 := h5 w2 hp
        by_cases hv2 : w2 = victim w k
        · exfalso
          rw [hv2, hq] at hq2
          cases hq2
        · rw [Function.update_noteq hv2]
          exact hq2
    · intro w2 k2 hscan
      rcases update_eq_cases hscan with ⟨he, hp⟩ | ⟨hne, hp⟩
      · exact PhaseC.noConfusion hp
      · exact h6 w2 k2 hp
  | scanEnd w hw =>
    refine InvC_phase_only ⟨h1, h2, h3, h4, h5, h6⟩ w (.checkE none)
      (by rw [hw]; rfl) (by rw [hw]; rfl) ?_ ?_ ?_
    · intro w2 o hcb
      rcases update_eq_cases hcb with ⟨he, hp⟩ | ⟨hne, hp⟩
      · exact PhaseC.noConfusion hp
      · exact h4 w2 o hp
    · intro w2 hdone
      rcases update_eq_cases hdone with ⟨he, hp⟩ | ⟨hne, hp⟩
      · exact PhaseC.noConfusion hp
      · exact h5 w2 hp
    · intro w2 k2 hscan
      rcases update_eq_cases hscan with ⟨he, hp⟩ | ⟨hne, hp⟩
      · exact PhaseC.noConfusion hp
      · exact h6 w2 k2 hp
  | readEmpty w o hw =>
    refine InvC_phase_only ⟨h1, h2, h3, h4, h5, h6⟩ w
      (.checkB o (decide (s.queues w = [])))
      (by rw [hw]; cases o <;> rfl) (by rw [hw]; cases o <;> rfl) ?_ ?_ ?_
    · intro w2 o2 hcb
      rcases update_eq_cases hcb with ⟨he, hp⟩ | ⟨hne, hp⟩
      · injection hp with ho he2
        subst he
        exact of_decide_eq_true he2
      · exact h4 w2 o2 hp
    · intro w2 hdone
      rcases update_eq_cases hdone with ⟨he, hp⟩ | ⟨hne, hp⟩
      · exact PhaseC.noConfusion hp
      · exact h5 w2 hp
    · intro w2 k2 hscan
      rcases update_eq_cases hscan with ⟨he, hp⟩ | ⟨hne, hp⟩
      · exact PhaseC.noConfusion hp
      · exact h6 w2 k2 hp
  | exitLoop w o hw hb =>
    cases o with
    | some x =>
      exfalso
      have hge := single_le_sum_int s.phase holdC holdC_nonneg w
      rw [hw] at hge
      rw [show holdC (PhaseC.checkB (some x) true) = 1 from rfl] at hge
      rw [h1] at hb
      omega
    | none =>
      refine InvC_phase_only ⟨h1, h2, h3, h4, h5, h6⟩ w .done
        (by rw [hw]; rfl) (by rw [hw]; rfl) ?_ ?_ ?_
      · intro w2 o2 hcb
        rcases update_eq_cases hcb with ⟨he, hp⟩ | ⟨hne, hp⟩
        · exact PhaseC.noConfusion hp
        · exact h4 w2 o2 hp
      · intro w2 hdone
        rcases update_eq_cases hdone with ⟨he, hp⟩ | ⟨hne, hp⟩
        · subst he
          exact h4 w2 none hw
        · exact h5 w2 hp
      · intro w2 k2 hscan
        rcases update_eq_cases hscan with ⟨he, hp⟩ | ⟨hne, hp⟩
        · exact PhaseC.noConfusion hp
        · exact h6 w2 k2 hp
  | contWork w x e hw he =>
    refine InvC_phase_only ⟨h1, h2, h3, h4, h5, h6⟩ w (.processing x)
      (by rw [hw]; rfl) (by rw [hw]; rfl) ?_ ?_ ?_
    · intro w2 o2 hcb
      rcases update_eq_cases hcb with ⟨he2, hp⟩ | ⟨hne, hp⟩
      · exact PhaseC.noConfusion hp
      · exact h4 w2 o2 hp
    · intro w2 hdone
      rcases update_eq_cases hdone with ⟨he2, hp⟩ | ⟨hne, hp⟩
      · exact PhaseC.noConfusion hp
      · exact h5 w2 hp
    · intro w2 k2 hscan
      rcases update_eq_cases hscan with ⟨he2, hp⟩ | ⟨hne, hp⟩
      · exact PhaseC.noConfusion hp
      · exact h6 w2 k2 hp
  | contIdle w e hw he =>
    refine InvC_phase_only ⟨h1, h2, h3, h4, h5, h6⟩ w .idle
      (by rw [hw]; rfl) (by rw [hw]; rfl) ?_ ?_ ?_
    · intro w2 o2 hcb
      rcases update_eq_cases hcb with ⟨he2, hp⟩ | ⟨hne, hp⟩
      · exact PhaseC.noConfusion hp
      · exact h4 w2 o2 hp
    · intro w2 hdone
      rcases update_eq_cases hdone with ⟨he2, hp⟩ | ⟨hne, hp⟩
      · exact PhaseC.noConfusion hp
      · exact h5 w2 hp
    · intro w2 k2 hscan
      rcases update_eq_cases hscan with ⟨he2, hp⟩ | ⟨hne, hp⟩
      · exact PhaseC.noConfusion hp
      · exact h6 w2 k2 hp
  | acceptStep w x v hw hv =>
    have Hh := sum_comp_update_int s.phase holdC w PhaseC.decr
    rw [hw] at Hh
    rw [show holdC (PhaseC.processing x) = 1 from rfl,
      show holdC PhaseC.decr = 1 from rfl] at Hh
    have Hm := sum_comp_update_add s.phase heldC w PhaseC.decr
    rw [hw] at Hm
    have Hm2 : (∑ v2, heldC (Function.update s.phase w PhaseC.decr v2)) + {x} =
        ∑ v2, heldC (s.phase v2) := by
      simpa [heldC] using Hm
    have hout : outC s = ((∑ v2, ((s.queues v2 : List Interval) : Multiset Interval)) +
        (∑ v2, heldC (Function.update s.phase w PhaseC.decr v2))) + {x} := by
      rw [outC, ← Hm2]
      abel
    unfold InvC
    dsimp only [outC]
    refine ⟨?_, ?_, ?_, ?_, ?_, ?_⟩
    · rw [Hh, ← h1]
      ring
    · rw [← h2, hout]
      simp only [Multiset.add_bind, Multiset.singleton_bind, (simpsonTree_accept hv).1]
      rw [← Multiset.singleton_add]
      abel
    · rw [← h3, hout]
      simp only [Multiset.add_bind, Multiset.singleton_bind, (simpsonTree_accept hv).2]
      rw [← Multiset.singleton_add]
      abel
    · intro w2 o2 hcb
      rcases update_eq_cases hcb with ⟨he2, hp⟩ | ⟨hne, hp⟩
      · exact PhaseC.noConfusion hp
      · exact h4 w2 o2 hp
    · intro w2 hdone
      rcases update_eq_cases hdone with ⟨he2, hp⟩ | ⟨hne, hp⟩
      · exact PhaseC.noConfusion hp
      · exact h5 w2 hp
    · intro w2 k2 hscan
      rcases update_eq_cases hscan with ⟨he2, hp⟩ | ⟨hne, hp⟩
      · exact PhaseC.noConfusion hp
      · exact h6 w2 k2 hp
  | splitStep w x j k hw hv =>
    have Hh := sum_comp_update_int s.phase holdC w PhaseC.decr
    rw [hw] at Hh
    rw [show holdC (PhaseC.processing x) = 1 from rfl,
      show holdC PhaseC.decr = 1 from rfl] at Hh
    have Hm := sum_comp_update_add s.phase heldC w PhaseC.decr
    rw [hw] at Hm
    have Hm2 : (∑ v2, heldC (Function.update s.phase w PhaseC.decr v2)) + {x} =
        ∑ v2, heldC (s.phase v2) := by
      simpa [heldC] using Hm
    have HqP := sum_queues_push s.queues w j k
    have hout : ((∑ v2, ((Function.update s.queues w (k :: j :: s.queues w) v2 :
          List Interval) : Multiset Interval)) +
        (∑ v2, heldC (Function.update s.phase w PhaseC.decr v2))) + {x} =
        outC s + {j} + {k} := by
      rw [HqP, outC, ← Hm2]
      abel
    have haccx : accMS f x = accMS f j + accMS f k := (simpsonTree_split hv).1
    have hprocx : procMS f x = x ::ₘ (procMS f j + procMS f k) :=
      (simpsonTree_split hv).2
    unfold InvC
    dsimp only [outC]
    refine ⟨?_, ?_, ?_, ?_, ?_, ?_⟩
    · rw [Hh, ← h1]
      ring
    · have hb := congrArg (fun m => Multiset.bind m (fun i => accMS f i)) hout
      simp only [Multiset.add_bind, Multiset.singleton_bind] at hb
      rw [haccx] at hb
      have hb2 : ((∑ v2, ((Function.update s.queues w (k :: j :: s.queues w) v2 :
            List Interval) : Multiset Interval)) +
          (∑ v2, heldC (Function.update s.phase w PhaseC.decr v2))).bind
            (fun i => accMS f i) =
          (outC s).bind (fun i => accMS f i) := by
        have h7 : ((∑ v2, ((Function.update s.queues w (k :: j :: s.queues w) v2 :
              List Interval) : Multiset Interval)) +
            (∑ v2, heldC (Function.update s.phase w PhaseC.decr v2))).bind
              (fun i => accMS f i) + (accMS f j + accMS f k) =
            (outC s).bind (fun i => accMS f i) + (accMS f j + accMS f k) := by
          simp only [Multiset.add_bind]
          rw [← add_assoc] at hb
          rw [← add_assoc, ← add_assoc]
          exact hb
        exact add_right_cancel h7
      rw [hb2]
      exact h2
    · have hb := congrArg (fun m => Multiset.bind m (fun i => procMS f i)) hout
      simp only [Multiset.add_bind, Multiset.singleton_bind] at hb
      rw [hprocx] at hb
      rw [← Multiset.singleton_add] at hb
      have hb2 : ((∑ v2, ((Function.update s.queues w (k :: j :: s.queues w) v2 :
            List Interval) : Multiset Interval)) +
          (∑ v2, heldC (Function.update s.phase w PhaseC.decr v2))).bind
            (fun i => procMS f i) + {x} =
          (outC s).bind (fun i => procMS f i) := by
        have h7 : ((∑ v2, ((Function.update s.queues w (k :: j :: s.queues w) v2 :
              List Interval) : Multiset Interval)) +
            (∑ v2, heldC (Function.update s.phase w PhaseC.decr v2))).bind
              (fun i => procMS f i) + {x} + (procMS f j + procMS f k) =
            (outC s).bind (fun i => procMS f i) + (procMS f j + procMS f k) := by
          simp only [Multiset.add_bind]
          rw [← add_assoc, ← add_assoc] at hb
          rw [← add_assoc, ← add_assoc]
          exact hb
        exact add_right_cancel h7
      rw [← h3, ← hb2]
      rw [← Multiset.singleton_add]
      abel
    · intro w2 o2 hcb
      rcases update_eq_cases hcb with ⟨he2, hp⟩ | ⟨hne, hp⟩
      · exact PhaseC.noConfusion hp
      · rw [Function.update_noteq hne]
        exact h4 w2 o2 hp
    · intro w2 hdone
      rcases update_eq_cases hdone with ⟨he2, hp⟩ | ⟨hne, hp⟩
      · exact PhaseC.noConfusion hp
      · rw [Function.update_noteq hne]
        exact h5 w2 hp
    · intro w2 k2 hscan
      rcases update_eq_cases hscan with ⟨he2, hp⟩ | ⟨hne, hp⟩
      · exact PhaseC.noConfusion hp
      · exact h6 w2 k2 hp
  | decStep w hw =>
    have Hh := sum_comp_update_int s.phase holdC w PhaseC.idle
    rw [hw] at Hh
    rw [show holdC PhaseC.decr = 1 from rfl,
      show holdC PhaseC.idle = 0 from rfl] at Hh
    have Hm := sum_comp_update_add s.phase heldC w PhaseC.idle
    rw [hw] at Hm
    have Hm2 : (∑ v, heldC (Function.update s.phase w PhaseC.idle v)) =
        ∑ v, heldC (s.phase v) := by
      simpa [heldC] using Hm
    have hout : (∑ v, ((s.queues v : List Interval) : Multiset Interval)) +
        (∑ v, heldC (Function.update s.phase w PhaseC.idle v)) = outC s := by
      rw [Hm2]
      rfl
    unfold InvC
    dsimp only [outC]
    refine ⟨?_, ?_, ?_, ?_, ?_, ?_⟩
    · rw [Hh, ← h1]
      ring
    · rw [hout]
      exact h2
    · rw [hout]
      exact h3
    · intro w2 o2 hcb
      rcases update_eq_cases hcb with ⟨he2, hp⟩ | ⟨hne, hp⟩
      · exact PhaseC.noConfusion hp
      · exact h4 w2 o2 hp
    · intro w2 hdone
      rcases update_eq_cases hdone with ⟨he2, hp⟩ | ⟨hne, hp⟩
      · exact PhaseC.noConfusion hp
      · exact h5 w2 hp
    · intro w2 k2 hscan
      rcases update_eq_cases hscan with ⟨he2, hp⟩ | ⟨hne, hp⟩
      · exact PhaseC.noConfusion hp
      · exact h6 w2 k2 hp

lemma InvC_init (f : ℚ → ℚ) (root : Interval) (W : ℕ) (hW : 0 < W) :
    InvC f root (initC W hW root) := by
  have hqs : (∑ v, ((Function.update (fun _ : Fin W => ([] : List Interval))
      ⟨0, hW⟩ [root] v : List Interval) : Multiset Interval)) = {root} := by
    have H := sum_comp_update_add (fun _ : Fin W => ([] : List Interval))
      (fun l => (l : Multiset Interval)) ⟨0, hW⟩ [root]
    have hz : (∑ v, (((fun _ : Fin W => ([] : List Interval)) v : List Interval) :
        Multiset Interval)) = 0 := by
      apply Finset.sum_eq_zero
      intro v _
      rfl
    rw [hz] at H
    simpa using H
  refine ⟨?_, ?_, ?_, ?_, ?_, ?_⟩
  · simp [initC, holdC]
  · show (0 : Multiset (Interval × ℚ)) + (outC (initC W hW root)).bind
      (fun i => accMS f i) = accMS f root
    rw [outC]
    show (0 : Multiset (Interval × ℚ)) +
      ((∑ v, ((Function.update (fun _ : Fin W => ([] : List Interval))
        ⟨0, hW⟩ [root] v : List Interval) : Multiset Interval)) +
       ∑ v : Fin W, heldC PhaseC.idle).bind (fun i => accMS f i) = accMS f root
    rw [hqs]
    simp [heldC]
  · show (0 : Multiset Interval) + (outC (initC W hW root)).bind
      (fun i => procMS f i) = procMS f root
    rw [outC]
    show (0 : Multiset Interval) +
      ((∑ v, ((Function.update (fun _ : Fin W => ([] : List Interval))
        ⟨0, hW⟩ [root] v : List Interval) : Multiset Interval)) +
       ∑ v : Fin W, heldC PhaseC.idle).bind (fun i => procMS f i) = procMS f root
    rw [hqs]
    simp [heldC]
  · intro w o hcb
    exact PhaseC.noConfusion hcb
  · intro w hdone
    exact PhaseC.noConfusion hdone
  · intro w k hscan
    exact PhaseC.noConfusion hscan

/-- Every reachable state of Strategy C satisfies the invariant. -/
lemma InvC_reachable {f : ℚ → ℚ} {root : Interval} {W : ℕ} {hW : 0 < W}
    {s : StateC W} (hr : ReachableC f (initC W hW root) s) : InvC f root s := by
  induction hr with
  | refl => exact InvC_init f root W hW
  | tail hab hbc ih => exact InvC_step ih hbc

/-- Terminal soundness of Strategy B: when every worker has exited, the
queue is empty, the busy counter is zero, and the ghost accumulators
cover the whole recursion tree. -/
lemma AllDoneB_final {f : ℚ → ℚ} {root : Interval} {W : ℕ} (hW : 0 < W)
    {s : StateB W} (hr : ReachableB f (initB W root) s) (hd : AllDoneB s) :
    s.queue = [] ∧ s.busy = 0 ∧ s.acc = accMS f root ∧ s.proc = procMS f root := by
  obtain ⟨h1, h2, h3, h4⟩ := InvB_reachable hr
  obtain ⟨hq, hb⟩ := h4 ⟨⟨0, hW⟩, hd ⟨0, hW⟩⟩
  have hheld : (∑ v, heldB (s.phase v)) = 0 := by
    apply Finset.sum_eq_zero
    intro v _
    rw [hd v]
    rfl
  have hout : outB s = 0 := by
    rw [outB, hq, hheld]
    rfl
  rw [hout] at h2 h3
  simp only [Multiset.zero_bind, add_zero] at h2 h3
  exact ⟨hq, hb, h2, h3⟩

/-- In Strategy B a worker exits only from the locked block, and only
when it finds the queue empty and the busy counter zero in that same
critical section. -/
lemma StepB_to_done {f : ℚ → ℚ} {W : ℕ} {s s2 : StateB W} {w : Fin W}
    (hstep : StepB f s s2) (hnd : s.phase w ≠ .done) (hd : s2.phase w = .done) :
    s.phase w = .idle ∧ s.queue = [] ∧ s.busy = 0 := by
  cases hstep with
  | pop w2 x rest hw hq =>
    rcases update_eq_cases hd with ⟨he, hp⟩ | ⟨hne, hp⟩
    · exact PhaseB.noConfusion hp
    · exact absurd hp hnd
  | exit w2 hw hq hb =>
    rcases update_eq_cases hd with ⟨he, hp⟩ | ⟨hne, hp⟩
    · subst he
      exact ⟨hw, hq, hb⟩
    · exact absurd hp hnd
  | spin w2 hw hq hb =>
    exact absurd hd hnd
  | accept w2 x v hw hv =>
    rcases update_eq_cases hd with ⟨he, hp⟩ | ⟨hne, hp⟩
    · exact PhaseB.noConfusion hp
    · exact absurd hp hnd
  | split w2 x j k hw hv =>
    rcases update_eq_cases hd with ⟨he, hp⟩ | ⟨hne, hp⟩
    · exact PhaseB.noConfusion hp
    · exact absurd hp hnd
  | dec w2 hw =>
    rcases update_eq_cases hd with ⟨he, hp⟩ | ⟨hne, hp⟩
    · exact PhaseB.noConfusion hp
    · exact absurd hp hnd

/-- Terminal soundness of Strategy C: when every worker has exited, every
store is empty, the busy counter is zero, and no interval has been left
unconsumed — the ghost accumulators cover the whole recursion tree. -/
lemma AllDoneC_final {f : ℚ → ℚ} {root : Interval} {W : ℕ} {hW : 0 < W}
    {s : StateC W} (hr : ReachableC f (initC W hW root) s) (hd : AllDoneC s) :
    (∀ v, s.queues v = []) ∧ s.busy = 0 ∧
      s.acc = accMS f root ∧ s.proc = procMS f root := by
  obtain ⟨h1, h2, h3, h4, h5, h6⟩ := InvC_reachable hr
  have hqs : ∀ v, s.queues v = [] := fun v => h5 v (hd v)
  have hbusy : s.busy = 0 := by
    rw [h1]
    apply Finset.sum_eq_zero
    intro v _
    rw [hd v]
    rfl
  have hout : outC s = 0 := by
    rw [outC]
    have hq0 : (∑ v, ((s.queues v : List Interval) : Multiset Interval)) = 0 := by
      apply Finset.sum_eq_zero
      intro v _
      rw [hqs v]
      rfl
    have hh0 : (∑ v, heldC (s.phase v)) = 0 := by
      apply Finset.sum_eq_zero
      intro v _
      rw [hd v]
      rfl
    rw [hq0, hh0]
    rfl
  rw [hout] at h2 h3
  simp only [Multiset.zero_bind, add_zero] at h2 h3
  exact ⟨hqs, hbusy, h2, h3⟩

/-- In Strategy C a worker transitions to `done` only from the
second read of the termination check, with no interval in hand and the
busy counter read as zero.  In particular no interval is dropped. -/
lemma StepC_to_done {f : ℚ → ℚ} {root : Interval} {W : ℕ} {s s2 : StateC W}
    {w : Fin W} (hs : InvC f root s) (hstep : StepC f s s2)
    (hnd : s.phase w ≠ .done) (hd : s2.phase w = .done) :
    s.phase w = .checkB none true ∧ s.busy = 0 := by
  obtain ⟨h1, h2, h3, h4, h5, h6⟩ := hs
  cases hstep with
  | popLocal w2 x rest hw hq =>
    rcases update_eq_cases hd with ⟨he, hp⟩ | ⟨hne, hp⟩
    · exact PhaseC.noConfusion hp
    · exact absurd hp hnd
  | noLocal w2 hw hq =>
    rcases update_eq_cases hd with ⟨he, hp⟩ | ⟨hne, hp⟩
    · exact PhaseC.noConfusion hp
    · exact absurd hp hnd
  | stealSkip w2 k hw hk =>
    rcases update_eq_cases hd with ⟨he, hp⟩ | ⟨hne, hp⟩
    · exact PhaseC.noConfusion hp
    · exact absurd hp hnd
  | stealEmpty w2 k hw hk hq =>
    rcases update_eq_cases hd with ⟨he, hp⟩ | ⟨hne, hp⟩
    · exact PhaseC.noConfusion hp
    · exact absurd hp hnd
  | stealPop w2 k x rest hw hk hq =>
    rcases update_eq_cases hd with ⟨he, hp⟩ | ⟨hne, hp⟩
    · exact PhaseC.noConfusion hp
    · exact absurd hp hnd
  | scanEnd w2 hw =>
    rcases update_eq_cases hd with ⟨he, hp⟩ | ⟨hne, hp⟩
    · exact PhaseC.noConfusion hp
    · exact absurd hp hnd
  | readEmpty w2 o hw =>
    rcases update_eq_cases hd with ⟨he, hp⟩ | ⟨hne, hp⟩
    · exact PhaseC.noConfusion hp
    · exact absurd hp hnd
  | exitLoop w2 o hw hb =>
    rcases update_eq_cases hd with ⟨he, hp⟩ | ⟨hne, hp⟩
    · subst he
      cases o with
      | some x =>
        exfalso
        have hge := single_le_sum_int s.phase holdC holdC_nonneg w
        rw [hw] at hge
        rw [show holdC (PhaseC.checkB (some x) true) = 1 from rfl] at hge
        rw [h1] at hb
        omega
      | none =>
        exact ⟨hw, hb⟩
    · exact absurd hp hnd
  | contWork w2 x e hw he =>
    rcases update_eq_cases hd with ⟨he2, hp⟩ | ⟨hne, hp⟩
    · exact PhaseC.noConfusion hp
    · exact absurd hp hnd
  | contIdle w2 e hw he =>
    rcases update_eq_cases hd with ⟨he2, hp⟩ | ⟨hne, hp⟩
    · exact PhaseC.noConfusion hp
    · exact absurd hp hnd
  | acceptStep w2 x v hw hv =>
    rcases update_eq_cases hd with ⟨he2, hp⟩ | ⟨hne, hp⟩
    · exact PhaseC.noConfusion hp
    · exact absurd hp hnd
  | splitStep w2 x j k hw hv =>
    rcases update_eq_cases hd with ⟨he2, hp⟩ | ⟨hne, hp⟩
    · exact PhaseC.noConfusion hp
    · exact absurd hp hnd
  | decStep w2 hw =>
    rcases update_eq_cases hd with ⟨he2, hp⟩ | ⟨hne, hp⟩
    · exact PhaseC.noConfusion hp
    · exact absurd hp hnd

/-! ## The steal-scan order of `solver2_separate.c` lines 136-140 -/

/-- The sequence of store indices the steal loop
`for (attempt = 0; attempt < queues_size; ++attempt)
   { other = (thread_id + attempt) % queues_size; if (other == thread_id) continue; … }`
inspects, in order. -/
def scanOrder (queues_size thread_id : ℕ) : List ℕ :=
  ((List.range queues_size).map
    (fun attempt => (thread_id + attempt) % queues_size)).filter
      (fun other => other != thread_id)

lemma add_offset_mod_ne {W self m : ℕ} (hs : self < W) (h1 : 1 ≤ m)
    (h2 : m < W) : (self + m) % W ≠ self := by
  intro hval
  rcases Nat.lt_or_ge (self + m) W with hlt | hge
  · rw [Nat.mod_eq_of_lt hlt] at hval
    omega
  · have hsub : (self + m) % W = (self + m - W) % W := Nat.mod_eq_sub_mod hge
    have hlt2 : self + m - W < W := by omega
    rw [hsub, Nat.mod_eq_of_lt hlt2] at hval
    omega

/-- The scan visits exactly the other `W-1` stores, in round-robin order
`self+1, self+2, …, self+W-1` (mod `W`), never the scanner's own. -/
lemma scanOrder_eq {W self : ℕ} (hs : self < W) :
    scanOrder W self =
      (List.range (W - 1)).map (fun k => (self + (k + 1)) % W) ∧
    self ∉ scanOrder W self := by
  have hW : W = (W - 1) + 1 := by omega
  have hrange : List.range W = 0 :: (List.range (W - 1)).map Nat.succ := by
    conv_lhs => rw [hW]
    exact List.range_succ_eq_map (W - 1)
  have hmap : (List.range W).map (fun attempt => (self + attempt) % W) =
      (self % W) :: (List.range (W - 1)).map (fun k => (self + (k + 1)) % W) := by
    rw [hrange]
    simp [List.map_map, Function.comp, Nat.succ_eq_add_one]
  have hself : self % W = self := Nat.mod_eq_of_lt hs
  have hkeep : ∀ b ∈ (List.range (W - 1)).map (fun k => (self + (k + 1)) % W),
      (b != self) = true := by
    intro b hb
    rcases List.mem_map.mp hb with ⟨k, hk, hbk⟩
    have hkW : k < W - 1 := List.mem_range.mp hk
    have hne := add_offset_mod_ne hs (by omega : 1 ≤ k + 1) (by omega : k + 1 < W)
    rw [← hbk] at *
    exact bne_iff_ne.mpr hne
  constructor
  · rw [scanOrder, hmap, hself]
    rw [List.filter_cons]
    simp only [bne_self_eq_false]
    rw [if_neg (by simp)]
    exact List.filter_eq_self.mpr hkeep
  · intro hmem
    rw [scanOrder] at hmem
    have := List.of_mem_filter hmem
    simp at this

/-- Inversion of a successful steal: a worker that leaves the scan with an
interval in hand took it from the store at offset `k` from its own index —
never its own store — and removed exactly that one interval. -/
lemma steal_pop_inversion {f : ℚ → ℚ} {root : Interval} {W : ℕ}
    {s s2 : StateC W} {w : Fin W} {kk : ℕ} {x : Interval}
    (hs : InvC f root s) (hstep : StepC f s s2)
    (hph : s.phase w = .scanning kk) (hph2 : s2.phase w = .checkE (some x)) :
    ∃ rest, s.queues (victim w kk) = x :: rest ∧
      s2.queues = Function.update s.queues (victim w kk) rest ∧
      s2.busy = s.busy + 1 ∧ victim w kk ≠ w := by
  obtain ⟨h1, h2, h3, h4, h5, h6⟩ := hs
  cases hstep with
  | popLocal w2 x2 rest hw hq =>
    rcases update_eq_cases hph2 with ⟨he, hp⟩ | ⟨hne, hp⟩
    · subst he
      rw [hph] at hw
      exact PhaseC.noConfusion hw
    · rw [hp] at hph
      exact PhaseC.noConfusion hph
  | noLocal w2 hw hq =>
    rcases update_eq_cases hph2 with ⟨he, hp⟩ | ⟨hne, hp⟩
    · exact PhaseC.noConfusion hp
    · rw [hp] at hph
      exact PhaseC.noConfusion hph
  | stealSkip w2 k hw hk =>
    rcases update_eq_cases hph2 with ⟨he, hp⟩ | ⟨hne, hp⟩
    · exact PhaseC.noConfusion hp
    · rw [hp] at hph
      exact PhaseC.noConfusion hph
  | stealEmpty w2 k hw hk hq =>
    rcases update_eq_cases hph2 with ⟨he, hp⟩ | ⟨hne, hp⟩
    · exact PhaseC.noConfusion hp
    · rw [hp] at hph
      exact PhaseC.noConfusion hph
  | stealPop w2 k x2 rest hw hk hq =>
    rcases update_eq_cases hph2 with ⟨he, hp⟩ | ⟨hne, hp⟩
    · subst he
      injection hp with hp2
      injection hp2 with hp3
      subst hp3
      rw [hph] at hw
      injection hw with hkk
      subst hkk
      obtain ⟨hk1, hk2⟩ := h6 w kk hph
      exact ⟨rest, hq, rfl, rfl, victim_ne w kk hk1 hk⟩
    · rw [hp] at hph
      exact PhaseC.noConfusion hph
  | scanEnd w2 hw =>
    rcases update_eq_cases hph2 with ⟨he, hp⟩ | ⟨hne, hp⟩
    · injection hp with hp2
      exact Option.noConfusion hp2
    · rw [hp] at hph
      exact PhaseC.noConfusion hph
  | readEmpty w2 o hw =>
    rcases update_eq_cases hph2 with ⟨he, hp⟩ | ⟨hne, hp⟩
    · exact PhaseC.noConfusion hp
    · rw [hp] at hph
      exact PhaseC.noConfusion hph
  | exitLoop w2 o hw hb =>
    rcases update_eq_cases hph2 with ⟨he, hp⟩ | ⟨hne, hp⟩
    · exact PhaseC.noConfusion hp
    · rw [hp] at hph
      exact PhaseC.noConfusion hph
  | contWork w2 x2 e hw he =>
    rcases update_eq_cases hph2 with ⟨he2, hp⟩ | ⟨hne, hp⟩
    · exact PhaseC.noConfusion hp
    · rw [hp] at hph
      exact PhaseC.noConfusion hph
  | contIdle w2 e hw he =>
    rcases update_eq_cases hph2 with ⟨he2, hp⟩ | ⟨hne, hp⟩
    · exact PhaseC.noConfusion hp
    · rw [hp] at hph
      exact PhaseC.noConfusion hph
  | acceptStep w2 x2 v hw hv =>
    rcases update_eq_cases hph2 with ⟨he2, hp⟩ | ⟨hne, hp⟩
    · exact PhaseC.noConfusion hp
    · rw [hp] at hph
      exact PhaseC.noConfusion hph
  | splitStep w2 x2 j k hw hv =>
    rcases update_eq_cases hph2 with ⟨he2, hp⟩ | ⟨hne, hp⟩
    · exact PhaseC.noConfusion hp
    · rw [hp] at hph
      exact PhaseC.noConfusion hph
  | decStep w2 hw =>
    rcases update_eq_cases hph2 with ⟨he2, hp⟩ | ⟨hne, hp⟩
    · exact PhaseC.noConfusion hp
    · rw [hp] at hph
      exact PhaseC.noConfusion hph

/-- Inversion of a split: the two children go onto the splitting worker's
own store (with `i2` on top), and no other store changes. -/
lemma split_push_inversion {f : ℚ → ℚ} {W : ℕ} {s s2 : StateC W}
    {w : Fin W} {x j k : Interval} (hstep : StepC f s s2)
    (hph : s.phase w = .processing x) (hph2 : s2.phase w = .decr)
    (hv : evaluate f x = .split j k) :
    s2.queues w = k :: j :: s.queues w ∧
      ∀ v, v ≠ w → s2.queues v = s.queues v := by
  cases hstep with
  | popLocal w2 x2 rest hw hq =>
    rcases update_eq_cases hph2 with ⟨he, hp⟩ | ⟨hne, hp⟩
    · exact PhaseC.noConfusion hp
    · rw [hp] at hph
      exact PhaseC.noConfusion hph
  | noLocal w2 hw hq =>
    rcases update_eq_cases hph2 with ⟨he, hp⟩ | ⟨hne, hp⟩
    · exact PhaseC.noConfusion hp
    · rw [hp] at hph
      exact PhaseC.noConfusion hph
  | stealSkip w2 k2 hw hk =>
    rcases update_eq_cases hph2 with ⟨he, hp⟩ | ⟨hne, hp⟩
    · exact PhaseC.noConfusion hp
    · rw [hp] at hph
      exact PhaseC.noConfusion hph
  | stealEmpty w2 k2 hw hk hq =>
    rcases update_eq_cases hph2 with ⟨he, hp⟩ | ⟨hne, hp⟩
    · exact PhaseC.noConfusion hp
    · rw [hp] at hph
      exact PhaseC.noConfusion hph
  | stealPop w2 k2 x2 rest hw hk hq =>
    rcases update_eq_cases hph2 with ⟨he, hp⟩ | ⟨hne, hp⟩
    · exact PhaseC.noConfusion hp
    · rw [hp] at hph
      exact PhaseC.noConfusion hph
  | scanEnd w2 hw =>
    rcases update_eq_cases hph2 with ⟨he, hp⟩ | ⟨hne, hp⟩
    · exact PhaseC.noConfusion hp
    · rw [hp] at hph
      exact PhaseC.noConfusion hph
  | readEmpty w2 o hw =>
    rcases update_eq_cases hph2 with ⟨he, hp⟩ | ⟨hne, hp⟩
    · exact PhaseC.noConfusion hp
    · rw [hp] at hph
      exact PhaseC.noConfusion hph
  | exitLoop w2 o hw hb =>
    rcases update_eq_cases hph2 with ⟨he, hp⟩ | ⟨hne, hp⟩
    · exact PhaseC.noConfusion hp
    · rw [hp] at hph
      exact PhaseC.noConfusion hph
  | contWork w2 x2 e hw he =>
    rcases update_eq_cases hph2 with ⟨he2, hp⟩ | ⟨hne, hp⟩
    · exact PhaseC.noConfusion hp
    · rw [hp] at hph
      exact PhaseC.noConfusion hph
  | contIdle w2 e hw he =>
    rcases update_eq_cases hph2 with ⟨he2, hp⟩ | ⟨hne, hp⟩
    · exact PhaseC.noConfusion hp
    · rw [hp] at hph
      exact PhaseC.noConfusion hph
  | acceptStep w2 x2 v hw hv2 =>
    rcases update_eq_cases hph2 with ⟨he2, hp⟩ | ⟨hne, hp⟩
    · subst he2
      rw [hph] at hw
      injection hw with hx
      subst hx
      rw [hv] at hv2
      exact Verdict.noConfusion hv2
    · rw [hp] at hph
      exact PhaseC.noConfusion hph
  | splitStep w2 x2 j2 k2 hw hv2 =>
    rcases update_eq_cases hph2 with ⟨he2, hp⟩ | ⟨hne, hp⟩
    · subst he2
      rw [hph] at hw
      injection hw with hx
      subst hx
      rw [hv] at hv2
      injection hv2 with hj hk
      subst hj
      subst hk
      constructor
      · show Function.update s.queues w (k :: j :: s.queues w) w = k :: j :: s.queues w
        rw [Function.update_same]
      · intro v hvne
        show Function.update s.queues w (k :: j :: s.queues w) v = s.queues v
        rw [Function.update_noteq hvne]
    · rw [hp] at hph
      exact PhaseC.noConfusion hph
  | decStep w2 hw =>
    rcases update_eq_cases hph2 with ⟨he2, hp⟩ | ⟨hne, hp⟩
    · subst he2
      rw [hph] at hw
      exact PhaseC.noConfusion hw
    · rw [hp] at hph
      exact PhaseC.noConfusion hph

/-! ## Concrete executions, used to instantiate the theorems -/

/-- A trivial integrand for concrete runs. -/
def demoF : ℚ → ℚ := fun _ => 0

/-- A root interval with correct cached values for `demoF`; the kernel
accepts it at once. -/
def demoI : Interval := ⟨0, 1, 1, 0, 0, 0⟩

lemma demo_eval : evaluate demoF demoI = .accept 0 := by
  unfold evaluate evaluateWith
  rw [if_pos]
  · norm_num [q2, q1, demoI, demoF]
  · unfold acceptCond
    left
    norm_num [q2, q1, demoI, demoF]

/-- An interval on which the kernel splits: correct caches for
`x ↦ x^4` on `[0,1]` with tolerance `1/1000 < |q2 - q1| = 1/128`. -/
def demoS : Interval := ⟨0, 1, 1 / 1000, 0, 1 / 16, 1⟩

def sB0 : StateB 1 := initB 1 demoI

def sB1 : StateB 1 :=
  { sB0 with queue := [], busy := sB0.busy + 1,
             phase := Function.update sB0.phase 0 (.work demoI) }

def sB2 : StateB 1 :=
  { sB1 with phase := Function.update sB1.phase 0 .decr,
             acc := (demoI, 0) ::ₘ sB1.acc, proc := demoI ::ₘ sB1.proc }

def sB3 : StateB 1 :=
  { sB2 with busy := sB2.busy - 1, phase := Function.update sB2.phase 0 .idle }

def sB4 : StateB 1 :=
  { sB3 with phase := Function.update sB3.phase 0 .done }

lemma demoB_step1 : StepB demoF sB0 sB1 := StepB.pop sB0 0 demoI [] rfl rfl

lemma demoB_step2 : StepB demoF sB1 sB2 := StepB.accept sB1 0 demoI 0 rfl demo_eval

lemma demoB_step3 : StepB demoF sB2 sB3 := StepB.dec sB2 0 rfl

lemma demoB_step4 : StepB demoF sB3 sB4 := StepB.exit sB3 0 rfl rfl (by decide)

lemma demoB_reach1 : ReachableB demoF sB0 sB1 :=
  Relation.ReflTransGen.single demoB_step1

lemma demoB_reach : ReachableB demoF sB0 sB4 :=
  Relation.ReflTransGen.tail
    (Relation.ReflTransGen.tail
      (Relation.ReflTransGen.tail demoB_reach1 demoB_step2) demoB_step3)
    demoB_step4

lemma demoB_alldone : AllDoneB sB4 := by
  intro w
  fin_cases w
  rfl

def sC0 : StateC 1 := initC 1 Nat.one_pos demoI

def sC1 : StateC 1 :=
  { sC0 with queues := Function.update sC0.queues 0 [], busy := sC0.busy + 1,
             phase := Function.update sC0.phase 0 (.checkE (some demoI)) }

def sC2 : StateC 1 :=
  { sC1 with phase := Function.update sC1.phase 0 (.checkB (some demoI) true) }

def sC3 : StateC 1 :=
  { sC2 with phase := Function.update sC2.phase 0 (.processing demoI) }

def sC4 : StateC 1 :=
  { sC3 with phase := Function.update sC3.phase 0 .decr,
             acc := (demoI, 0) ::ₘ sC3.acc, proc := demoI ::ₘ sC3.proc }

def sC5 : StateC 1 :=
  { sC4 with busy := sC4.busy - 1, phase := Function.update sC4.phase 0 .idle }

def sC6 : StateC 1 :=
  { sC5 with phase := Function.update sC5.phase 0 (.scanning 1) }

def sC7 : StateC 1 :=
  { sC6 with phase := Function.update sC6.phase 0 (.checkE none) }

def sC8 : StateC 1 :=
  { sC7 with phase := Function.update sC7.phase 0 (.checkB none true) }

def sC9 : StateC 1 :=
  { sC8 with phase := Function.update sC8.phase 0 .done }

lemma demoC_step1 : StepC demoF sC0 sC1 := StepC.popLocal sC0 0 demoI [] rfl rfl

lemma demoC_step2 : StepC demoF sC1 sC2 := StepC.readEmpty sC1 0 (some demoI) rfl

lemma demoC_step3 : StepC demoF sC2 sC3 :=
  StepC.contWork sC2 0 demoI true rfl (Or.inr (by decide))

lemma demoC_step4 : StepC demoF sC3 sC4 := StepC.acceptStep sC3 0 demoI 0 rfl demo_eval

lemma demoC_step5 : StepC demoF sC4 sC5 := StepC.decStep sC4 0 rfl

lemma demoC_step6 : StepC demoF sC5 sC6 := StepC.noLocal sC5 0 rfl rfl

lemma demoC_step7 : StepC demoF sC6 sC7 := StepC.scanEnd sC6 0 rfl

lemma demoC_step8 : StepC demoF sC7 sC8 := StepC.readEmpty sC7 0 none rfl

lemma demoC_step9 : StepC demoF sC8 sC9 := StepC.exitLoop sC8 0 none rfl (by decide)

lemma demoC_reach2 : ReachableC demoF sC0 sC2 :=
  Relation.ReflTransGen.tail (Relation.ReflTransGen.single demoC_step1) demoC_step2

lemma demoC_reach8 : ReachableC demoF sC0 sC8 :=
  Relation.ReflTransGen.tail
    (Relation.ReflTransGen.tail
      (Relation.ReflTransGen.tail
        (Relation.ReflTransGen.tail
          (Relation.ReflTransGen.tail
            (Relation.ReflTransGen.tail demoC_reach2 demoC_step3) demoC_step4)
          demoC_step5) demoC_step6) demoC_step7) demoC_step8

lemma demoC_reach : ReachableC demoF sC0 sC9 :=
  Relation.ReflTransGen.tail demoC_reach8 demoC_step9

lemma demoC_alldone : AllDoneC sC9 := by
  intro w
  fin_cases w
  rfl

/-! A two-worker Strategy C run in which worker 0 pops an interval (and
increments the busy counter) strictly between worker 1's two reads of the
unlocked termination check of `solver2_separate.c` line 168. -/

def tC0 : StateC 2 := initC 2 (by norm_num) demoI

def tC1 : StateC 2 :=
  { tC0 with phase := Function.update tC0.phase 1 (.scanning 1) }

def tC2 : StateC 2 :=
  { tC1 with phase := Function.update tC1.phase 1 (.scanning 2) }

def tC3 : StateC 2 :=
  { tC2 with phase := Function.update tC2.phase 1 (.checkE none) }

def tC4 : StateC 2 :=
  { tC3 with phase := Function.update tC3.phase 1 (.checkB none true) }

def tC5 : StateC 2 :=
  { tC4 with queues := Function.update tC4.queues 0 [], busy := tC4.busy + 1,
             phase := Function.update tC4.phase 0 (.checkE (some demoI)) }

lemma demoT_reach : ReachableC demoF tC0 tC4 := by
  have h1 : StepC demoF tC0 tC1 := StepC.noLocal tC0 1 rfl rfl
  have h2 : StepC demoF tC1 tC2 := StepC.stealSkip tC1 1 1 rfl (by norm_num)
  have h3 : StepC demoF tC2 tC3 := StepC.scanEnd tC2 1 rfl
  have h4 : StepC demoF tC3 tC4 := StepC.readEmpty tC3 1 none rfl
  exact Relation.ReflTransGen.tail
    (Relation.ReflTransGen.tail
      (Relation.ReflTransGen.tail
        (Relation.ReflTransGen.tail Relation.ReflTransGen.refl h1) h2) h3) h4

lemma demoT_step : StepC demoF tC4 tC5 :=
  StepC.popLocal tC4 0 demoI [] rfl rfl

lemma demoT_reach1 : ReachableC demoF tC0 tC1 :=
  Relation.ReflTransGen.single (StepC.noLocal tC0 1 rfl rfl)

/-- Branch of the two-worker run in which worker 1 steals worker 0's
interval at scan offset 1 (victim `(1 + 1) % 2 = 0`). -/
def uC2 : StateC 2 :=
  { tC1 with queues := Function.update tC1.queues (victim 1 1) [],
             busy := tC1.busy + 1,
             phase := Function.update tC1.phase 1 (.checkE (some demoI)) }

lemma demoU_step : StepC demoF tC1 uC2 :=
  StepC.stealPop tC1 1 1 demoI [] rfl (by decide) rfl

/-- The kernel splits `demoS` under `demoF`:
`|q2 - q1| = 11/96 ≥ 1/1000 = tol`. -/
lemma demoS_eval : evaluate demoF demoS =
    .split (leftChild demoS 0) (rightChild demoS 0) := by
  unfold evaluate evaluateWith
  rw [if_neg]
  · rfl
  · unfold acceptCond
    push_neg
    constructor
    · have h2 : q2 demoS (demoF (quarterD demoS)) (demoF (quarterE demoS)) -
          q1 demoS = -(11 / 96) := by
        norm_num [q2, q1, demoS, demoF]
      rw [h2, abs_neg, abs_of_pos (by norm_num : (0 : ℚ) < 11 / 96)]
      norm_num [demoS]
    · norm_num [demoS, floorWidth]

/-- A one-worker state about to split `demoS`. -/
def vS : StateC 1 :=
  ⟨fun _ => [], 1, fun _ => .processing demoS, 0, 0⟩

def vS2 : StateC 1 :=
  { vS with queues := Function.update vS.queues 0
              (rightChild demoS 0 :: leftChild demoS 0 :: vS.queues 0),
            phase := Function.update vS.phase 0 .decr,
            proc := demoS ::ₘ vS.proc }

lemma demoV_step : StepC demoF vS vS2 :=
  StepC.splitStep vS 0 demoS (leftChild demoS 0) (rightChild demoS 0) rfl demoS_eval

lemma demoC_reach1 : ReachableC demoF sC0 sC1 :=
  Relation.ReflTransGen.single demoC_step1

/-! ## Predicates and polynomials for the kernel claims -/

/-- The cached values of an interval are the integrand's values at its own
bounds and midpoint (spec §3, §8). -/
def cachedOK (f : ℚ → ℚ) (i : Interval) : Prop :=
  i.f_left = f i.left ∧ i.f_mid = f ((i.left + i.right) / 2) ∧
    i.f_right = f i.right

/-- `c0 + c1 x + c2 x² + c3 x³ + c4 x⁴`. -/
def polyEval (c0 c1 c2 c3 c4 x : ℚ) : ℚ :=
  c0 + c1 * x + c2 * x ^ 2 + c3 * x ^ 3 + c4 * x ^ 4

/-- The exact integral of that polynomial over `[a, b]`. -/
def polyIntegral (c0 c1 c2 c3 c4 a b : ℚ) : ℚ :=
  c0 * (b - a) + c1 * (b ^ 2 - a ^ 2) / 2 + c2 * (b ^ 3 - a ^ 3) / 3 +
    c3 * (b ^ 4 - a ^ 4) / 4 + c4 * (b ^ 5 - a ^ 5) / 5

/-- The interval `[a, b]` with correct caches for that polynomial. -/
def polyInterval (c0 c1 c2 c3 c4 a b t : ℚ) : Interval :=
  ⟨a, b, t, polyEval c0 c1 c2 c3 c4 a, polyEval c0 c1 c2 c3 c4 ((a + b) / 2),
    polyEval c0 c1 c2 c3 c4 b⟩

/-! ## The claims -/

/-- C1: the three schedulers compute the same final estimate.  Strategy A's
recursive value is the sum of the accepted Richardson estimates of the
recursion tree; in Strategies B and C, every completed run (all workers
exited) has accumulated exactly that multiset of accepted (interval,
estimate) pairs and processed exactly the recursion tree's multiset of
sub-intervals, so over exact arithmetic all three agree; with
floating-point doubles they agree up to summation order, as the claim
states. -/
theorem C1_three_schedulers_same_results :
    (∀ (f : ℚ → ℚ) (i : Interval),
      Solver1.simpson f i = ((accMS f i).map Prod.snd).sum) ∧
    (∀ (f : ℚ → ℚ) (root : Interval) (W : ℕ), 0 < W → ∀ s : StateB W,
      ReachableB f (initB W root) s → AllDoneB s →
      s.acc = accMS f root ∧ s.proc = procMS f root ∧
        (s.acc.map Prod.snd).sum = Solver1.simpson f root) ∧
    (∀ (f : ℚ → ℚ) (root : Interval) (W : ℕ) (hW : 0 < W) (s : StateC W),
      ReachableC f (initC W hW root) s → AllDoneC s →
      s.acc = accMS f root ∧ s.proc = procMS f root ∧
        (s.acc.map Prod.snd).sum = Solver1.simpson f root) := by
  refine ⟨simpson1_eq_sum, ?_, ?_⟩
  · intro f root W hW s hr hd
    obtain ⟨hq, hb, hacc, hproc⟩ := AllDoneB_final hW hr hd
    refine ⟨hacc, hproc, ?_⟩
    rw [hacc, ← simpson1_eq_sum]
  · intro f root W hW s hr hd
    obtain ⟨hq, hb, hacc, hproc⟩ := AllDoneC_final hr hd
    refine ⟨hacc, hproc, ?_⟩
    rw [hacc, ← simpson1_eq_sum]

/-- Witness for C1 at a concrete one-worker run of each scheduler. -/
theorem C1_witness :
    sB4.acc = accMS demoF demoI ∧ sC9.acc = accMS demoF demoI ∧
      (sB4.acc.map Prod.snd).sum = Solver1.simpson demoF demoI :=
  ⟨(C1_three_schedulers_same_results.2.1 demoF demoI 1 Nat.one_pos sB4
      demoB_reach demoB_alldone).1,
   (C1_three_schedulers_same_results.2.2 demoF demoI 1 Nat.one_pos sC9
      demoC_reach demoC_alldone).1,
   (C1_three_schedulers_same_results.2.1 demoF demoI 1 Nat.one_pos sB4
      demoB_reach demoB_alldone).2.2⟩

/-- C2: the kernel accepts exactly when `|q2 - q1| < tol` or
`right - left < 1e-12`, with `q1`, `q2` the spec's 3- and 5-point
formulas at the quarter-points `d = (left+mid)/2`, `e = (mid+right)/2`;
on acceptance it contributes `q2 + (q2 - q1)/15`, otherwise it splits. -/
theorem C2_kernel_accept_rule (f : ℚ → ℚ) (i : Interval)
    (hlr : i.left < i.right) (q1v q2v : ℚ)
    (hq1 : q1v = (i.right - i.left) / 6 * (i.f_left + 4 * i.f_mid + i.f_right))
    (hq2 : q2v = (i.right - i.left) / 12 *
      (i.f_left + 4 * f ((i.left + (i.left + i.right) / 2) / 2) + 2 * i.f_mid +
        4 * f (((i.left + i.right) / 2 + i.right) / 2) + i.f_right)) :
    ((|q2v - q1v| < i.tol ∨ i.right - i.left < 1 / 1000000000000) →
      evaluate f i = .accept (q2v + (q2v - q1v) / 15)) ∧
    (∀ v, evaluate f i = .accept v →
      (|q2v - q1v| < i.tol ∨ i.right - i.left < 1 / 1000000000000) ∧
        v = q2v + (q2v - q1v) / 15) ∧
    (¬(|q2v - q1v| < i.tol ∨ i.right - i.left < 1 / 1000000000000) →
      ∃ j k, evaluate f i = .split j k) := by
  subst hq1
  subst hq2
  refine ⟨?_, ?_, ?_⟩
  · intro hcond
    unfold evaluate evaluateWith
    rw [if_pos (show acceptCond i (f (quarterD i)) (f (quarterE i)) from hcond)]
    rfl
  · intro v hv
    unfold evaluate evaluateWith at hv
    by_cases hc : acceptCond i (f (quarterD i)) (f (quarterE i))
    · rw [if_pos hc] at hv
      injection hv with hval
      exact ⟨hc, hval.symm⟩
    · rw [if_neg hc] at hv
      exact Verdict.noConfusion hv
  · intro hnc
    refine ⟨leftChild i (f (quarterD i)), rightChild i (f (quarterE i)), ?_⟩
    unfold evaluate evaluateWith
    rw [if_neg (show ¬acceptCond i (f (quarterD i)) (f (quarterE i)) from hnc)]

/-- Witness for C2 on the concrete interval `demoI`. -/
theorem C2_witness : evaluate demoF demoI = .accept (0 + (0 - 0) / 15) :=
  (C2_kernel_accept_rule demoF demoI (by norm_num [demoI]) 0 0
    (by norm_num [q1, demoI]) (by norm_num [q2, demoI, demoF])).1
    (Or.inl (by norm_num [demoI]))

/-- C3: splitting is lossless and evaluation-frugal: the children cover
`[left, c]` and `[c, right]` with `c` the midpoint, inherit the tolerance,
their caches are correct whenever the parent's were, the kernel consults
the integrand only at the two quarter-points (never at the cached
points), and the quarter-points differ from all three cached points. -/
theorem C3_split_lossless_frugal (f : ℚ → ℚ) (i j k : Interval)
    (hlr : i.left < i.right) (hv : evaluate f i = .split j k) :
    j.left = i.left ∧ j.right = (i.left + i.right) / 2 ∧
    k.left = (i.left + i.right) / 2 ∧ k.right = i.right ∧
    j.tol = i.tol ∧ k.tol = i.tol ∧
    (cachedOK f i → cachedOK f j ∧ cachedOK f k) ∧
    evaluate f i = evaluateWith i (f (quarterD i)) (f (quarterE i)) ∧
    (∀ g : ℚ → ℚ, g (quarterD i) = f (quarterD i) →
      g (quarterE i) = f (quarterE i) → evaluate g i = evaluate f i) ∧
    quarterD i ≠ i.left ∧ quarterD i ≠ (i.left + i.right) / 2 ∧
    quarterD i ≠ i.right ∧ quarterE i ≠ i.left ∧
    quarterE i ≠ (i.left + i.right) / 2 ∧ quarterE i ≠ i.right := by
  obtain ⟨hj, hk, -⟩ := evaluate_split_elim hv
  subst hj
  subst hk
  have hD : quarterD i = (3 * i.left + i.right) / 4 := by
    unfold quarterD midpoint
    ring
  have hE : quarterE i = (i.left + 3 * i.right) / 4 := by
    unfold quarterE midpoint
    ring
  refine ⟨rfl, rfl, rfl, rfl, rfl, rfl, ?_, rfl, ?_, ?_, ?_, ?_, ?_, ?_, ?_⟩
  · rintro ⟨c1, c2, c3⟩
    exact ⟨⟨c1, rfl, c2⟩, ⟨c2, rfl, c3⟩⟩
  · intro g hd he
    unfold evaluate
    rw [hd, he]
  · rw [hD]
    intro h
    linarith
  · rw [hD]
    intro h
    linarith
  · rw [hD]
    intro h
    linarith
  · rw [hE]
    intro h
    linarith
  · rw [hE]
    intro h
    linarith
  · rw [hE]
    intro h
    linarith

/-- Witness for C3 on the splitting interval `demoS`. -/
theorem C3_witness : (leftChild demoS 0).left = demoS.left :=
  (C3_split_lossless_frugal demoF demoS (leftChild demoS 0)
    (rightChild demoS 0) (by norm_num [demoS]) demoS_eval).1

/-- Counterexample for C4: in Strategy C the termination decision
`isempty(local_queue) && active_threads == 0` (`solver2_separate.c` line
168) is two separate unlocked reads, not one critical section: in this
concrete two-worker run, worker 1 has performed the emptiness read (it is
in `checkB`) and has not yet read the busy counter, while worker 0's pop
changes the busy counter in between — another worker's store operation
interleaves strictly inside the supposedly atomic decision. -/
theorem C4_counterexample :
    ReachableC demoF tC0 tC4 ∧ StepC demoF tC4 tC5 ∧
    tC4.phase 1 = .checkB none true ∧ tC5.phase 1 = .checkB none true ∧
    tC4.busy = 0 ∧ tC5.busy = 1 :=
  ⟨demoT_reach, demoT_step, rfl, rfl, rfl, by decide⟩

/-- C4 as amended: in Strategy B the decision is one atomic check inside
the store's critical section (a worker exits only from the locked block,
having found the queue empty and the counter zero there); in Strategy C
the check is two separate reads, but a worker still exits only with no
interval in hand and the busy counter read as zero, and when all workers
have exited every store is empty, the counter is zero, and no interval
was left unconsumed. -/
theorem C4_exit_protocol :
    (∀ (f : ℚ → ℚ) (W : ℕ) (s s2 : StateB W) (w : Fin W),
      StepB f s s2 → s.phase w ≠ .done → s2.phase w = .done →
      s.phase w = .idle ∧ s.queue = [] ∧ s.busy = 0) ∧
    (∀ (f : ℚ → ℚ) (root : Interval) (W : ℕ) (hW : 0 < W) (s s2 : StateC W)
      (w : Fin W), ReachableC f (initC W hW root) s → StepC f s s2 →
      s.phase w ≠ .done → s2.phase w = .done →
      s.phase w = .checkB none true ∧ s.busy = 0) ∧
    (∀ (f : ℚ → ℚ) (root : Interval) (W : ℕ) (hW : 0 < W) (s : StateC W),
      ReachableC f (initC W hW root) s → AllDoneC s →
      (∀ v, s.queues v = []) ∧ s.busy = 0 ∧
        s.acc = accMS f root ∧ s.proc = procMS f root) := by
  refine ⟨?_, ?_, ?_⟩
  · intro f W s s2 w hstep hnd hd
    exact StepB_to_done hstep hnd hd
  · intro f root W hW s s2 w hr hstep hnd hd
    exact StepC_to_done (InvC_reachable hr) hstep hnd hd
  · intro f root W hW s hr hd
    exact AllDoneC_final hr hd

/-- Witness for C4's amended statement on the concrete runs. -/
theorem C4_witness :
    (sB3.phase 0 = .idle ∧ sB3.queue = [] ∧ sB3.busy = 0) ∧
    (sC8.phase 0 = .checkB none true ∧ sC8.busy = 0) ∧
    sC9.queues 0 = [] ∧ sC9.busy = 0 :=
  ⟨C4_exit_protocol.1 demoF 1 sB3 sB4 0 demoB_step4 (by decide) rfl,
   C4_exit_protocol.2.1 demoF demoI 1 Nat.one_pos sC8 sC9 0 demoC_reach8
     demoC_step9 (by decide) rfl,
   (C4_exit_protocol.2.2 demoF demoI 1 Nat.one_pos sC9 demoC_reach
     demoC_alldone).1 0,
   (C4_exit_protocol.2.2 demoF demoI 1 Nat.one_pos sC9 demoC_reach
     demoC_alldone).2.1⟩

/-- C5: the busy counter equals, in every reachable state of Strategies B
and C, the number of workers currently between their matched
`active_threads++` (performed with the removal of an interval) and
`active_threads--` (performed by the same worker after that interval is
accepted or split-and-requeued); in particular it is never negative. -/
theorem C5_busy_counter_matched :
    (∀ (f : ℚ → ℚ) (root : Interval) (W : ℕ) (s : StateB W),
      ReachableB f (initB W root) s →
      s.busy = (∑ w, holdB (s.phase w)) ∧ 0 ≤ s.busy) ∧
    (∀ (f : ℚ → ℚ) (root : Interval) (W : ℕ) (hW : 0 < W) (s : StateC W),
      ReachableC f (initC W hW root) s →
      s.busy = (∑ w, holdC (s.phase w)) ∧ 0 ≤ s.busy) := by
  constructor
  · intro f root W s hr
    have h := (InvB_reachable hr).1
    refine ⟨h, ?_⟩
    rw [h]
    exact Finset.sum_nonneg fun w _ => holdB_nonneg _
  · intro f root W hW s hr
    have h := (InvC_reachable hr).1
    refine ⟨h, ?_⟩
    rw [h]
    exact Finset.sum_nonneg fun w _ => holdC_nonneg _

/-- Witness for C5 at concrete reachable states. -/
theorem C5_witness :
    sB1.busy = (∑ w, holdB (sB1.phase w)) ∧ (0 : ℤ) ≤ sC1.busy :=
  ⟨(C5_busy_counter_matched.1 demoF demoI 1 sB1 demoB_reach1).1,
   (C5_busy_counter_matched.2 demoF demoI 1 Nat.one_pos sC1 demoC_reach1).2⟩

/-- C6: the store keeps `-1 ≤ top ≤ capacity-1` with capacity 10000:
`initialize` sets the empty sentinel, push on a full store and pop on an
empty store abort instead of writing/reading, otherwise push increments
`top` and writes at `entry[top]`, pop reads `entry[top]` and decrements,
and a pop right after a push returns the interval just pushed (LIFO). -/
theorem C6_store_bounds_lifo :
    (∀ q : Queue, (initQueue q).top = -1) ∧
    (∀ (i : Interval) (q : Queue), q.top = MAXQUEUE - 1 →
      enqueue i q = .error "Maximum queue size exceeded - exiting") ∧
    (∀ (i : Interval) (q : Queue), q.top ≠ MAXQUEUE - 1 → ∃ q2,
      enqueue i q = .ok q2 ∧ q2.top = q.top + 1 ∧
      q2.entry q2.top.toNat = i ∧ (QueueInv q → QueueInv q2)) ∧
    (∀ q : Queue, q.top = -1 →
      dequeue q = .error "Attempt to extract from empty queue - exiting") ∧
    (∀ q : Queue, q.top ≠ -1 → ∃ q2,
      dequeue q = .ok (q.entry q.top.toNat, q2) ∧ q2.top = q.top - 1 ∧
      (QueueInv q → QueueInv q2)) ∧
    (∀ (i : Interval) (q q2 : Queue), QueueInv q → enqueue i q = .ok q2 →
      ∃ q3, dequeue q2 = .ok (i, q3) ∧ q3.top = q.top) := by
  refine ⟨fun q => rfl, ?_, ?_, ?_, ?_, ?_⟩
  · intro i q h
    unfold enqueue
    rw [if_pos h]
  · intro i q h
    unfold enqueue
    rw [if_neg h]
    refine ⟨_, rfl, rfl, Function.update_same _ _ _, ?_⟩
    rintro ⟨a, b⟩
    unfold MAXQUEUE at b h
    exact ⟨show (-1 : ℤ) ≤ q.top + 1 by omega,
      show (q.top + 1 : ℤ) ≤ 10000 - 1 by omega⟩
  · intro q h
    unfold dequeue
    rw [if_pos h]
  · intro q h
    unfold dequeue
    rw [if_neg h]
    refine ⟨_, rfl, rfl, ?_⟩
    rintro ⟨a, b⟩
    unfold MAXQUEUE at b
    exact ⟨show (-1 : ℤ) ≤ q.top - 1 by omega,
      show (q.top - 1 : ℤ) ≤ 10000 - 1 by omega⟩
  · intro i q q2 hInv hok
    unfold enqueue at hok
    by_cases h : q.top = MAXQUEUE - 1
    · rw [if_pos h] at hok
      exact Except.noConfusion hok
    · rw [if_neg h] at hok
      injection hok with h2
      subst h2
      obtain ⟨a, b⟩ := hInv
      unfold dequeue
      rw [if_neg (by omega : ¬(q.top + 1 : ℤ) = -1)]
      refine ⟨⟨Function.update q.entry (q.top + 1).toNat i, q.top + 1 - 1⟩,
        ?_, ?_⟩
      · show Except.ok
            (Function.update q.entry (q.top + 1).toNat i (q.top + 1).toNat,
              (⟨Function.update q.entry (q.top + 1).toNat i, q.top + 1 - 1⟩ :
                Queue)) =
          Except.ok (i,
            (⟨Function.update q.entry (q.top + 1).toNat i, q.top + 1 - 1⟩ :
              Queue))
        rw [Function.update_same]
      · show q.top + 1 - 1 = q.top
        ring

/-- Witness for C6: push then pop on a concrete store returns the pushed
interval and restores `top`. -/
theorem C6_witness :
    ∃ q3, dequeue (⟨Function.update (fun _ => demoI) ((0 : ℤ) + 1).toNat demoS,
        (0 : ℤ) + 1⟩ : Queue) = .ok (demoS, q3) ∧ q3.top = (0 : ℤ) :=
  C6_store_bounds_lifo.2.2.2.2.2 demoS ⟨fun _ => demoI, 0⟩
    ⟨Function.update (fun _ => demoI) ((0 : ℤ) + 1).toNat demoS, (0 : ℤ) + 1⟩
    (show (-1 : ℤ) ≤ 0 ∧ (0 : ℤ) ≤ MAXQUEUE - 1 from
      ⟨by norm_num, by norm_num [MAXQUEUE]⟩)
    rfl

/-- Counterexample for C7: for the degree-4 integrand `x⁴` on `[0, 1]`
with correct caches, the kernel's 5-point estimate is `77/384`, not the
exact integral `1/5`: `q2` alone is not exact for degree-4 polynomials. -/
theorem C7_counterexample :
    q2 (polyInterval 0 0 0 0 1 0 1 1)
        (polyEval 0 0 0 0 1 (quarterD (polyInterval 0 0 0 0 1 0 1 1)))
        (polyEval 0 0 0 0 1 (quarterE (polyInterval 0 0 0 0 1 0 1 1))) =
      77 / 384 ∧
    polyIntegral 0 0 0 0 1 0 1 = 1 / 5 ∧ (77 / 384 : ℚ) ≠ 1 / 5 := by
  refine ⟨?_, ?_, by norm_num⟩ <;>
    norm_num [q2, polyEval, polyIntegral, polyInterval, quarterD, quarterE,
      midpoint]

/-- C7 as amended: the kernel's 5-point estimate `q2` equals the exact
integral for every polynomial of degree ≤ 3 (composite Simpson
exactness); the Richardson-extrapolated accepted value
`q2 + (q2 - q1)/15` is exact for every polynomial of degree ≤ 4. -/
theorem C7_five_point_exactness (c0 c1 c2 c3 c4 a b t : ℚ) :
    q2 (polyInterval c0 c1 c2 c3 0 a b t)
        (polyEval c0 c1 c2 c3 0 (quarterD (polyInterval c0 c1 c2 c3 0 a b t)))
        (polyEval c0 c1 c2 c3 0 (quarterE (polyInterval c0 c1 c2 c3 0 a b t))) =
      polyIntegral c0 c1 c2 c3 0 a b ∧
    q2 (polyInterval c0 c1 c2 c3 c4 a b t)
        (polyEval c0 c1 c2 c3 c4 (quarterD (polyInterval c0 c1 c2 c3 c4 a b t)))
        (polyEval c0 c1 c2 c3 c4 (quarterE (polyInterval c0 c1 c2 c3 c4 a b t))) +
      (q2 (polyInterval c0 c1 c2 c3 c4 a b t)
        (polyEval c0 c1 c2 c3 c4 (quarterD (polyInterval c0 c1 c2 c3 c4 a b t)))
        (polyEval c0 c1 c2 c3 c4 (quarterE (polyInterval c0 c1 c2 c3 c4 a b t))) -
        q1 (polyInterval c0 c1 c2 c3 c4 a b t)) / 15 =
      polyIntegral c0 c1 c2 c3 c4 a b := by
  constructor
  · unfold q2 polyInterval polyEval polyIntegral quarterD quarterE midpoint
    ring
  · unfold q2 q1 polyInterval polyEval polyIntegral quarterD quarterE midpoint
    ring

/-- C8: the steal scan inspects exactly the other `W-1` stores in the
order `self+1, …, self+W-1` (mod `W`), never the scanner's own store; a
worker that leaves the scan with an interval removed exactly one interval
from the victim at its current offset; and a split pushes both children
onto the splitting worker's own store only. -/
theorem C8_steal_scan_order :
    (∀ W self : ℕ, self < W →
      scanOrder W self = (List.range (W - 1)).map (fun k => (self + (k + 1)) % W) ∧
      self ∉ scanOrder W self) ∧
    (∀ (W : ℕ) (w : Fin W) (k : ℕ), 1 ≤ k → k < W → victim w k ≠ w) ∧
    (∀ (f : ℚ → ℚ) (root : Interval) (W : ℕ) (hW : 0 < W) (s s2 : StateC W)
      (w : Fin W) (kk : ℕ) (x : Interval),
      ReachableC f (initC W hW root) s → StepC f s s2 →
      s.phase w = .scanning kk → s2.phase w = .checkE (some x) →
      ∃ rest, s.queues (victim w kk) = x :: rest ∧
        s2.queues = Function.update s.queues (victim w kk) rest ∧
        s2.busy = s.busy + 1 ∧ victim w kk ≠ w) ∧
    (∀ (f : ℚ → ℚ) (W : ℕ) (s s2 : StateC W) (w : Fin W) (x j k : Interval),
      StepC f s s2 → s.phase w = .processing x → s2.phase w = .decr →
      evaluate f x = .split j k →
      s2.queues w = k :: j :: s.queues w ∧
        ∀ v, v ≠ w → s2.queues v = s.queues v) := by
  refine ⟨?_, ?_, ?_, ?_⟩
  · intro W self h
    exact scanOrder_eq h
  · intro W w k h1 h2
    exact victim_ne w k h1 h2
  · intro f root W hW s s2 w kk x hr hstep hph hph2
    exact steal_pop_inversion (InvC_reachable hr) hstep hph hph2
  · intro f W s s2 w x j k hstep hph hph2 hv
    exact split_push_inversion hstep hph hph2 hv

/-- Witness for C8: scan order for `W = 3`, a concrete steal, and a
concrete split onto the splitter's own store. -/
theorem C8_witness :
    (scanOrder 3 1 = (List.range (3 - 1)).map (fun k => (1 + (k + 1)) % 3) ∧
      1 ∉ scanOrder 3 1) ∧
    victim (1 : Fin 2) 1 ≠ 1 ∧
    (∃ rest, tC1.queues (victim 1 1) = demoI :: rest ∧
      uC2.queues = Function.update tC1.queues (victim 1 1) rest ∧
      uC2.busy = tC1.busy + 1 ∧ victim (1 : Fin 2) 1 ≠ 1) ∧
    (vS2.queues 0 = rightChild demoS 0 :: leftChild demoS 0 :: vS.queues 0 ∧
      ∀ v, v ≠ (0 : Fin 1) → vS2.queues v = vS.queues v) :=
  ⟨C8_steal_scan_order.1 3 1 (by decide),
   C8_steal_scan_order.2.1 2 1 1 (by decide) (by decide),
   C8_steal_scan_order.2.2.1 demoF demoI 2 (by decide) tC1 uC2 1 1 demoI
     demoT_reach1 demoU_step rfl rfl,
   C8_steal_scan_order.2.2.2 demoF 1 vS vS2 0 demoS (leftChild demoS 0)
     (rightChild demoS 0) demoV_step rfl rfl demoS_eval⟩

/-- Counterexample for C9: the abort messages do not identify the store —
two different full stores produce the identical error value, so the error
identifies the attempted operation but not which store failed. -/
theorem C9_counterexample :
    enqueue demoI ⟨fun _ => demoI, MAXQUEUE - 1⟩ =
      .error "Maximum queue size exceeded - exiting" ∧
    enqueue demoI ⟨fun _ => demoS, MAXQUEUE - 1⟩ =
      .error "Maximum queue size exceeded - exiting" ∧
    (⟨fun _ => demoI, MAXQUEUE - 1⟩ : Queue) ≠ ⟨fun _ => demoS, MAXQUEUE - 1⟩ := by
  refine ⟨?_, ?_, ?_⟩
  · unfold enqueue
    rw [if_pos rfl]
  · unfold enqueue
    rw [if_pos rfl]
  · intro h
    have h2 : demoI = demoS := congrArg (fun q => q.entry 0) h
    have h3 : demoI.tol = demoS.tol := congrArg Interval.tol h2
    rw [show demoI.tol = 1 from rfl, show demoS.tol = 1 / 1000 from rfl] at h3
    norm_num at h3

/-- C9 as amended: exactly two conditions abort — push into a full store
and pop from an empty store — each immediately with an error message that
identifies the attempted operation (the two messages differ) but not the
store; lock contention (the steal-skip step) and a transiently empty
queue while others are busy (the spin step) are ordinary transitions that
never abort. -/
theorem C9_two_fatal_aborts :
    (∀ (i : Interval) (q : Queue),
      (∃ m, enqueue i q = .error m) ↔ q.top = MAXQUEUE - 1) ∧
    (∀ (i : Interval) (q : Queue) (m : String), enqueue i q = .error m →
      m = "Maximum queue size exceeded - exiting" ∧ q.top = MAXQUEUE - 1) ∧
    (∀ q : Queue, (∃ m, dequeue q = .error m) ↔ q.top = -1) ∧
    (∀ (q : Queue) (m : String), dequeue q = .error m →
      m = "Attempt to extract from empty queue - exiting" ∧ q.top = -1) ∧
    ("Maximum queue size exceeded - exiting" ≠
      "Attempt to extract from empty queue - exiting") ∧
    (∀ (W : ℕ) (f : ℚ → ℚ) (s : StateC W) (w : Fin W) (k : ℕ),
      s.phase w = .scanning k → k < W →
      StepC f s { s with phase := Function.update s.phase w (.scanning (k + 1)) }) ∧
    (∀ (W : ℕ) (f : ℚ → ℚ) (s : StateB W) (w : Fin W),
      s.phase w = .idle → s.queue = [] → s.busy ≠ 0 → StepB f s s) := by
  refine ⟨?_, ?_, ?_, ?_, by decide, ?_, ?_⟩
  · intro i q
    constructor
    · rintro ⟨m, hm⟩
      unfold enqueue at hm
      by_cases h : q.top = MAXQUEUE - 1
      · exact h
      · rw [if_neg h] at hm
        exact Except.noConfusion hm
    · intro h
      exact ⟨_, by unfold enqueue; rw [if_pos h]⟩
  · intro i q m hm
    unfold enqueue at hm
    by_cases h : q.top = MAXQUEUE - 1
    · rw [if_pos h] at hm
      injection hm with h2
      exact ⟨h2.symm, h⟩
    · rw [if_neg h] at hm
      exact Except.noConfusion hm
  · intro q
    constructor
    · rintro ⟨m, hm⟩
      unfold dequeue at hm
      by_cases h : q.top = -1
      · exact h
      · rw [if_neg h] at hm
        exact Except.noConfusion hm
    · intro h
      exact ⟨_, by unfold dequeue; rw [if_pos h]⟩
  · intro q m hm
    unfold dequeue at hm
    by_cases h : q.top = -1
    · rw [if_pos h] at hm
      injection hm with h2
      exact ⟨h2.symm, h⟩
    · rw [if_neg h] at hm
      exact Except.noConfusion hm
  · intro W f s w k hw hk
    exact StepC.stealSkip s w k hw hk
  · intro W f s w hw hq hb
    exact StepB.spin s w hw hq hb

/-- Witness for C9's amended statement. -/
theorem C9_witness :
    (∃ m, enqueue demoI ⟨fun _ => demoI, MAXQUEUE - 1⟩ = .error m) ∧
    StepC demoF tC1 tC2 :=
  ⟨(C9_two_fatal_aborts.1 demoI ⟨fun _ => demoI, MAXQUEUE - 1⟩).mpr rfl,
   C9_two_fatal_aborts.2.2.2.2.2.1 2 demoF tC1 1 1 rfl (by decide)⟩

/-- C10 (implicit): a worker that has removed an interval contributes 1
to the busy counter until its matching decrement, so in every reachable
state of Strategies B and C a holding worker sees `busy ≥ 1`; hence the
termination predicate read while holding an interval is false, and (in B)
the only transition to `done` starts from the non-holding loop-top
phase. -/
theorem C10_holding_blocks_termination :
    (∀ (f : ℚ → ℚ) (root : Interval) (W : ℕ) (s : StateB W) (w : Fin W),
      ReachableB f (initB W root) s → holdB (s.phase w) = 1 → 1 ≤ s.busy) ∧
    (∀ (f : ℚ → ℚ) (root : Interval) (W : ℕ) (hW : 0 < W) (s : StateC W)
      (w : Fin W), ReachableC f (initC W hW root) s →
      holdC (s.phase w) = 1 → 1 ≤ s.busy) ∧
    (∀ (f : ℚ → ℚ) (root : Interval) (W : ℕ) (hW : 0 < W) (s : StateC W)
      (w : Fin W) (x : Interval) (e : Bool),
      ReachableC f (initC W hW root) s → s.phase w = .checkB (some x) e →
      ¬(s.queues w = [] ∧ s.busy = 0)) ∧
    (∀ (f : ℚ → ℚ) (W : ℕ) (s s2 : StateB W) (w : Fin W),
      StepB f s s2 → s.phase w ≠ .done → s2.phase w = .done →
      s.phase w = .idle) := by
  refine ⟨?_, ?_, ?_, ?_⟩
  · intro f root W s w hr hh
    have h1 := (InvB_reachable hr).1
    have hge := single_le_sum_int s.phase holdB holdB_nonneg w
    rw [hh] at hge
    rw [h1]
    exact hge
  · intro f root W hW s w hr hh
    have h1 := (InvC_reachable hr).1
    have hge := single_le_sum_int s.phase holdC holdC_nonneg w
    rw [hh] at hge
    rw [h1]
    exact hge
  · intro f root W hW s w x e hr hph
    rintro ⟨hq, hb⟩
    have h1 := (InvC_reachable hr).1
    have hge := single_le_sum_int s.phase holdC holdC_nonneg w
    rw [hph] at hge
    rw [show holdC (PhaseC.checkB (some x) e) = 1 from rfl] at hge
    rw [h1] at hb
    omega
  · intro f W s s2 w hstep hnd hd
    exact (StepB_to_done hstep hnd hd).1

/-- Witness for C10 at concrete holding states. -/
theorem C10_witness :
    (1 : ℤ) ≤ sB1.busy ∧ (1 : ℤ) ≤ sC1.busy ∧
    ¬(sC2.queues 0 = [] ∧ sC2.busy = 0) ∧ sB3.phase 0 = .idle :=
  ⟨C10_holding_blocks_termination.1 demoF demoI 1 sB1 0 demoB_reach1 rfl,
   C10_holding_blocks_termination.2.1 demoF demoI 1 Nat.one_pos sC1 0
     demoC_reach1 rfl,
   C10_holding_blocks_termination.2.2.1 demoF demoI 1 Nat.one_pos sC2 0
     demoI true demoC_reach2 rfl,
   C10_holding_blocks_termination.2.2.2 demoF 1 sB3 sB4 0 demoB_step4
     (by decide) rfl⟩

end Omp
